import Mathlib

/-!
# Tool enablement and registration of the MCP filesystem server

A shallow embedding of `main.go` (`parseToolConfig`, `main`) and of
`filesystemserver/server.go` (`ToolConfig`, `isToolEnabled`,
`NewFilesystemServer`), together with the parts of the Go standard library
these functions call (`strings.TrimSpace`, `strings.Split`,
`path/filepath.Match`, `unicode/utf8`, `unicode.IsSpace`, `flag.Parse`).

A Go string is a finite sequence of bytes; it is embedded as a list of natural
numbers (one per byte, each below 256 in a real string).  A slice `s[i:]` is
`s.drop i`, a slice `s[:i]` is `s.take i`.  Loops are structural recursions,
on the remaining input or on a fuel that the caller sets to a bound of the
number of iterations.
-/

namespace FilesystemServer

/-- A Go `string`: its bytes, in order. -/
abbrev GoString := List Nat

/-! ## unicode/utf8 -/

/-- The constant utf8.RuneError, the Unicode replacement character. -/
def RuneError : Nat := 0xFFFD
/-- The constant utf8.RuneSelf: bytes below it are single-byte runes. -/
def RuneSelf : Nat := 0x80
/-- The constant utf8.UTFMax: the longest encoding of a rune, in bytes. -/
def UTFMax : Nat := 4
/-- The constant utf8.MaxRune. -/
def MaxRune : Nat := 0x10FFFF

def surrogateMin : Nat := 0xD800
def surrogateMax : Nat := 0xDFFF

def t2 : Nat := 0xC0
def t3 : Nat := 0xE0
def t4 : Nat := 0xF0
def tx : Nat := 0x80
def maskx : Nat := 0x3F
def mask2 : Nat := 0x1F
def mask3 : Nat := 0x0F
def mask4 : Nat := 0x07
def rune1Max : Nat := 0x7F
def rune2Max : Nat := 0x7FF
def rune3Max : Nat := 0xFFFF

/-- The lowest continuation byte. -/
def locb : Nat := 0x80
/-- The highest continuation byte. -/
def hicb : Nat := 0xBF

/-- The entry `xx` of the table `first`: an invalid first byte, of size 1. -/
def xx : Nat := 0xF1
/-- The entry `as` of the table `first`: an ASCII byte, of size 1. -/
def as : Nat := 0xF0
def s1 : Nat := 0x02
def s2 : Nat := 0x13
def s3 : Nat := 0x03
def s4 : Nat := 0x23
def s5 : Nat := 0x34
def s6 : Nat := 0x04
def s7 : Nat := 0x44

/-- The table `first` of unicode/utf8: information about the first byte of an
encoding (low three bits: the size; high four bits: the index into
`acceptRanges`, or `0xF` for the one-byte special cases). -/
def first (b : Nat) : Nat :=
  if b < 0x80 then as
  else if b < 0xC2 then xx
  else if b < 0xE0 then s1
  else if b = 0xE0 then s2
  else if b < 0xED then s3
  else if b = 0xED then s4
  else if b < 0xF0 then s3
  else if b = 0xF0 then s5
  else if b < 0xF4 then s6
  else if b = 0xF4 then s7
  else xx

/-- The table `acceptRanges` of unicode/utf8: the range `(lo, hi)` of valid
second bytes. -/
def acceptRanges (i : Nat) : Nat × Nat :=
  if i = 0 then (locb, hicb)
  else if i = 1 then (0xA0, hicb)
  else if i = 2 then (locb, 0x9F)
  else if i = 3 then (0x90, hicb)
  else if i = 4 then (locb, 0x8F)
  else (0, 0)

/-- The function utf8.DecodeRuneInString: the first rune of `s` and its width
in bytes; `(RuneError, 0)` on the empty string and `(RuneError, 1)` on an
invalid encoding. -/
def DecodeRuneInString (s : GoString) : Nat × Nat :=
  let n := s.length
  if n < 1 then (RuneError, 0)
  else
    let s0 := s.getD 0 0
    let x := first s0
    if x ≥ as then
      -- mask is all zeros for `as` (even) and all ones for `xx` (odd)
      (if x &&& 1 = 0 then s0 else RuneError, 1)
    else
      let sz := x &&& 7
      let accept := acceptRanges (x >>> 4)
      if n < sz then (RuneError, 1)
      else
        let b1 := s.getD 1 0
        if b1 < accept.1 ∨ accept.2 < b1 then (RuneError, 1)
        else if sz ≤ 2 then (((s0 &&& mask2) <<< 6) ||| (b1 &&& maskx), 2)
        else
          let b2 := s.getD 2 0
          if b2 < locb ∨ hicb < b2 then (RuneError, 1)
          else if sz ≤ 3 then
            (((s0 &&& mask3) <<< 12) ||| ((b1 &&& maskx) <<< 6) ||| (b2 &&& maskx), 3)
          else
            let b3 := s.getD 3 0
            if b3 < locb ∨ hicb < b3 then (RuneError, 1)
            else
              (((s0 &&& mask4) <<< 18) ||| ((b1 &&& maskx) <<< 12) ||| ((b2 &&& maskx) <<< 6)
                ||| (b3 &&& maskx), 4)

/-- The function utf8.RuneStart: `b` is not a continuation byte. -/
def RuneStart (b : Nat) : Bool := b &&& 0xC0 != 0x80

/-- The backward scan of utf8.DecodeLastRuneInString,
`for start--; start >= lim; start-- { if RuneStart(s[start]) { break } }`,
entered after the first `start--`; it returns the final value of `start`. -/
def lastRuneStartLoop (s : GoString) (lim : Int) : Nat → Int → Int
  | 0, start => start
  | fuel + 1, start =>
    if start ≥ lim then
      if RuneStart (s.getD start.toNat 0) then start
      else lastRuneStartLoop s lim fuel (start - 1)
    else start

/-- The function utf8.DecodeLastRuneInString: the last rune of `s` and its
width in bytes. -/
def DecodeLastRuneInString (s : GoString) : Nat × Nat :=
  let end_ := s.length
  if end_ = 0 then (RuneError, 0)
  else
    let start : Int := (end_ : Int) - 1
    let r := s.getD start.toNat 0
    if r < RuneSelf then (r, 1)
    else
      let lim : Int := (end_ : Int) - (UTFMax : Int)
      let lim : Int := if lim < 0 then 0 else lim
      let start := lastRuneStartLoop s lim UTFMax (start - 1)
      let start : Int := if start < 0 then 0 else start
      let (r, size) := DecodeRuneInString ((s.take end_).drop start.toNat)
      if start + (size : Int) ≠ (end_ : Int) then (RuneError, 1)
      else (r, size)

/-- The non-ASCII part of utf8.AppendRune: the UTF-8 encoding of the rune `r`
(the encoding of `RuneError` for a surrogate or a value above `MaxRune`). -/
def appendRuneNonASCII (p : GoString) (r : Nat) : GoString :=
  if r ≤ rune2Max then
    p ++ [t2 ||| ((r >>> 6) % 256), tx ||| ((r % 256) &&& maskx)]
  else if r > MaxRune ∨ (surrogateMin ≤ r ∧ r ≤ surrogateMax) then
    p ++ [t3 ||| ((RuneError >>> 12) % 256), tx ||| (((RuneError >>> 6) % 256) &&& maskx),
      tx ||| ((RuneError % 256) &&& maskx)]
  else if r ≤ rune3Max then
    p ++ [t3 ||| ((r >>> 12) % 256), tx ||| (((r >>> 6) % 256) &&& maskx),
      tx ||| ((r % 256) &&& maskx)]
  else
    p ++ [t4 ||| ((r >>> 18) % 256), tx ||| (((r >>> 12) % 256) &&& maskx),
      tx ||| (((r >>> 6) % 256) &&& maskx), tx ||| ((r % 256) &&& maskx)]

/-- The function utf8.AppendRune: `p` followed by the UTF-8 encoding of `r`. -/
def AppendRune (p : GoString) (r : Nat) : GoString :=
  if r ≤ rune1Max then p ++ [r % 256] else appendRuneNonASCII p r

/-- The bytes of a Go string literal: the UTF-8 encoding of its characters. -/
def str (s : String) : GoString :=
  s.toList.foldl (fun p c => AppendRune p c.toNat) []

/-! ## unicode -/

/-- The function unicode.IsSpace: the Latin-1 switch, and above Latin-1 the
ranges of the table `White_Space`. -/
def IsSpace (r : Nat) : Bool :=
  if r ≤ 0xFF then
    r == 0x09 || r == 0x0A || r == 0x0B || r == 0x0C || r == 0x0D || r == 0x20
      || r == 0x85 || r == 0xA0
  else
    r == 0x1680 || (0x2000 ≤ r && r ≤ 0x200A) || (0x2028 ≤ r && r ≤ 0x2029)
      || r == 0x202F || r == 0x205F || r == 0x3000

/-! ## strings -/

/-- The type `error` of Go, reduced to its message. -/
abbrev GoError := String

/-- The table `asciiSpace` of package strings: 1 for the six ASCII space
bytes, 0 for every other byte. -/
def asciiSpace (c : Nat) : Nat :=
  if c = 0x09 ∨ c = 0x0A ∨ c = 0x0B ∨ c = 0x0C ∨ c = 0x0D ∨ c = 0x20 then 1 else 0

/-- The loop `for i, r := range s { if f(r) == truth { return i } }` of
strings.indexFunc, at byte offset `i` with `s` the rest of the string; `none`
is the result -1. -/
def indexFuncLoop (f : Nat → Bool) (truth : Bool) : Nat → GoString → Nat → Option Nat
  | 0, _, _ => none
  | fuel + 1, s, i =>
    if s.length = 0 then none
    else
      let (r, size) := DecodeRuneInString s
      if f r == truth then some i
      else indexFuncLoop f truth fuel (s.drop size) (i + size)

/-- The function strings.indexFunc: the index of the first rune of `s` on
which `f` is `truth`, or `none` for -1. -/
def indexFunc (s : GoString) (f : Nat → Bool) (truth : Bool) : Option Nat :=
  indexFuncLoop f truth s.length s 0

/-- The loop `for i := len(s); i > 0; { ... }` of strings.lastIndexFunc. -/
def lastIndexFuncLoop (f : Nat → Bool) (truth : Bool) (s : GoString) : Nat → Nat → Option Nat
  | 0, _ => none
  | fuel + 1, i =>
    if i > 0 then
      let (r, size) := DecodeLastRuneInString (s.take i)
      let i := i - size
      if f r == truth then some i
      else lastIndexFuncLoop f truth s fuel i
    else none

/-- The function strings.lastIndexFunc: the index of the last rune of `s` on
which `f` is `truth`, or `none` for -1. -/
def lastIndexFunc (s : GoString) (f : Nat → Bool) (truth : Bool) : Option Nat :=
  lastIndexFuncLoop f truth s s.length s.length

/-- The function strings.TrimLeftFunc. -/
def TrimLeftFunc (s : GoString) (f : Nat → Bool) : GoString :=
  match indexFunc s f false with
  | none => []
  | some i => s.drop i

/-- The end of the result of strings.TrimRightFunc, from the index `i` that
`lastIndexFunc` returned: `i` plus the width of the rune at `i` when
`s[i] >= utf8.RuneSelf`, and `i + 1` otherwise; -1 (`none`) becomes 0. -/
def trimRightEnd (s : GoString) : Option Nat → Nat
  | some i =>
    if s.getD i 0 ≥ RuneSelf then i + (DecodeRuneInString (s.drop i)).2
    else i + 1
  | none => 0

/-- The function strings.TrimRightFunc. -/
def TrimRightFunc (s : GoString) (f : Nat → Bool) : GoString :=
  s.take (trimRightEnd s (lastIndexFunc s f false))

/-- The function strings.TrimFunc. -/
def TrimFunc (s : GoString) (f : Nat → Bool) : GoString :=
  TrimRightFunc (TrimLeftFunc s f) f

/-- The first loop of strings.TrimSpace, on `s[start:]`: it skips ASCII space
bytes.  The result is `.inl t` when a byte `≥ RuneSelf` is met, with
`t = s[start:]` the argument of the fallback `TrimFunc`, and `.inr t` when the
loop breaks or ends, with `t = s[start:]`. -/
def trimSpaceStartLoop : GoString → GoString ⊕ GoString
  | [] => .inr []
  | c :: t =>
    if c ≥ RuneSelf then .inl (c :: t)
    else if asciiSpace c = 0 then .inr (c :: t)
    else trimSpaceStartLoop t

/-- The second loop of strings.TrimSpace, on the reverse of `s[start:stop]`:
it skips ASCII space bytes from the end.  The result is `.inl t` when a byte
`≥ RuneSelf` is met, with `t` the reverse of the argument `s[start:stop]` of
the fallback `TrimRightFunc`, and `.inr t` when the loop breaks or ends, with
`t` the reverse of `s[start:stop]`. -/
def trimSpaceStopLoop : GoString → GoString ⊕ GoString
  | [] => .inr []
  | c :: t =>
    if c ≥ RuneSelf then .inl (c :: t)
    else if asciiSpace c = 0 then .inr (c :: t)
    else trimSpaceStopLoop t

/-- The function strings.TrimSpace: `s` without its leading and trailing
white space, as defined by Unicode. -/
def TrimSpace (s : GoString) : GoString :=
  match trimSpaceStartLoop s with
  | .inl t => TrimFunc t IsSpace
  | .inr t =>
    match trimSpaceStopLoop t.reverse with
    | .inl u => TrimRightFunc u.reverse IsSpace
    | .inr u => u.reverse

/-- The function strings.HasPrefix. -/
def HasPrefix (s pre : GoString) : Bool :=
  s.length ≥ pre.length && s.take pre.length == pre

/-- The function strings.Index: the index of the first instance of `substr`
in `s`, or `none` for -1. -/
def Index : GoString → GoString → Option Nat
  | [], substr => if substr.length = 0 then some 0 else none
  | c :: t, substr =>
    if HasPrefix (c :: t) substr then some 0
    else (Index t substr).map (· + 1)

/-- The function strings.Contains. -/
def Contains (s substr : GoString) : Bool := (Index s substr).isSome

/-- The loop of strings.Count for a non-empty `substr`: the number of
non-overlapping instances of `substr` in `s`. -/
def countLoop (substr : GoString) : Nat → GoString → Nat → Nat
  | 0, _, n => n
  | fuel + 1, s, n =>
    match Index s substr with
    | none => n
    | some i => countLoop substr fuel (s.drop (i + substr.length)) (n + 1)

/-- The loop of utf8.RuneCountInString. -/
def runeCountLoop : Nat → GoString → Nat → Nat
  | 0, _, n => n
  | fuel + 1, s, n =>
    if s.length = 0 then n
    else runeCountLoop fuel (s.drop (DecodeRuneInString s).2) (n + 1)

/-- The function utf8.RuneCountInString. -/
def RuneCountInString (s : GoString) : Nat := runeCountLoop s.length s 0

/-- The function strings.Count. -/
def Count (s substr : GoString) : Nat :=
  if substr.length = 0 then RuneCountInString s + 1
  else countLoop substr s.length s 0

/-- The loop `for i := 0; i < n-1; i++` of strings.explode, run `k` times;
the rest of the string is the last element. -/
def explodeLoop : Nat → GoString → List GoString
  | 0, s => [s]
  | k + 1, s =>
    let size := (DecodeRuneInString s).2
    s.take size :: explodeLoop k (s.drop size)

/-- The function strings.explode, with `n < 0`: `s` split into its UTF-8
sequences. -/
def explode (s : GoString) : List GoString :=
  let n := RuneCountInString s
  if n > 0 then explodeLoop (n - 1) s else []

/-- The loop `for i < n { m := Index(s, sep); if m < 0 { break }; ... }` of
strings.genSplit (with `sepSave = 0`), run at most `n` times; the rest of the
string is the last element. -/
def genSplitLoop (sep : GoString) : Nat → GoString → List GoString
  | 0, s => [s]
  | n + 1, s =>
    match Index s sep with
    | none => [s]
    | some m => s.take m :: genSplitLoop sep n (s.drop (m + sep.length))

/-- The function strings.Split, that is `genSplit(s, sep, 0, -1)`: the
substrings of `s` between the instances of `sep`. -/
def Split (s sep : GoString) : List GoString :=
  if sep = [] then explode s
  else
    let n := Count s sep + 1
    let n := if n > s.length + 1 then s.length + 1 else n
    genSplitLoop sep (n - 1) s

/-! ## path/filepath (Unix) -/

/-- The constant filepath.Separator on Unix, the byte of a slash. -/
def Separator : Nat := 0x2F

/-- The error filepath.ErrBadPattern. -/
def ErrBadPattern : GoError := "syntax error in pattern"

/-- The first loop of filepath.scanChunk: it strips the leading stars (byte
0x2A) of the pattern and records whether there was one. -/
def scanChunkStars : GoString → Bool → GoString × Bool
  | [], star => ([], star)
  | c :: t, star => if c = 0x2A then scanChunkStars t true else (c :: t, star)

/-- The loop `Scan` of filepath.scanChunk on `pattern[i:]`: the index of the
first star outside a bracket range, or the length of the pattern.  A backslash
(0x5C) skips the next byte, `[` (0x5B) opens a range and `]` (0x5D) closes
it. -/
def scanChunkLoop : Nat → GoString → Bool → Nat → Nat
  | 0, _, _, i => i
  | _ + 1, [], _, i => i
  | fuel + 1, c :: t, inrange, i =>
    if c = 0x5C then
      -- `if i+1 < len(pattern) { i++ }`, then the `i++` of the loop
      if t.length > 0 then scanChunkLoop fuel (t.drop 1) inrange (i + 2)
      else scanChunkLoop fuel t inrange (i + 1)
    else if c = 0x5B then scanChunkLoop fuel t true (i + 1)
    else if c = 0x5D then scanChunkLoop fuel t false (i + 1)
    else if c = 0x2A then
      if !inrange then i else scanChunkLoop fuel t inrange (i + 1)
    else scanChunkLoop fuel t inrange (i + 1)

/-- The function filepath.scanChunk: the next segment of the pattern, a
non-star string possibly preceded by a star; it returns
`(star, chunk, rest)`. -/
def scanChunk (pattern : GoString) : Bool × GoString × GoString :=
  let (pattern, star) := scanChunkStars pattern false
  let i := scanChunkLoop pattern.length pattern false 0
  (star, pattern.take i, pattern.drop i)

/-- The function filepath.getEsc: a possibly escaped character of a character
class; it returns `(r, nchunk, err)`. -/
def getEsc (chunk : GoString) : Nat × GoString × Option GoError :=
  if chunk.length = 0 ∨ chunk.getD 0 0 = 0x2D ∨ chunk.getD 0 0 = 0x5D then
    (0, [], some ErrBadPattern)
  else
    let esc := chunk.getD 0 0 = 0x5C
    let chunk := if esc then chunk.drop 1 else chunk
    if esc ∧ chunk.length = 0 then (0, [], some ErrBadPattern)
    else
      let (r, n) := DecodeRuneInString chunk
      let err : Option GoError := if r = RuneError ∧ n = 1 then some ErrBadPattern else none
      let nchunk := chunk.drop n
      let err : Option GoError := if nchunk.length = 0 then some ErrBadPattern else err
      (r, nchunk, err)

/-- The loop `for { ... }` of filepath.matchChunk that parses the ranges of a
character class against the rune `r`; it returns the rest of the chunk and
whether a range held `r`, or the error of the pattern. -/
def matchRangeLoop (r : Nat) : Nat → GoString → Bool → Nat → Except GoError (GoString × Bool)
  | 0, _, _, _ => .error ErrBadPattern
  | fuel + 1, chunk, mtch, nrange =>
    if chunk.length > 0 ∧ chunk.getD 0 0 = 0x5D ∧ nrange > 0 then .ok (chunk.drop 1, mtch)
    else
      match getEsc chunk with
      | (_, _, some err) => .error err
      | (lo, chunk, none) =>
        if chunk.getD 0 0 = 0x2D then
          match getEsc (chunk.drop 1) with
          | (_, _, some err) => .error err
          | (hi, chunk, none) =>
            matchRangeLoop r fuel chunk (if lo ≤ r ∧ r ≤ hi then true else mtch) (nrange + 1)
        else
          matchRangeLoop r fuel chunk (if lo ≤ r ∧ r ≤ lo then true else mtch) (nrange + 1)

/-- The loop `for len(chunk) > 0 { ... }` of filepath.matchChunk, with the
flag `failed`; it returns `(rest, ok, err)`. -/
def matchChunkLoop : Nat → GoString → GoString → Bool → GoString × Bool × Option GoError
  | 0, _, _, _ => ([], false, some ErrBadPattern)
  | fuel + 1, chunk, s, failed =>
    if chunk.length > 0 then
      let failed := if !failed ∧ s.length = 0 then true else failed
      let c0 := chunk.getD 0 0
      if c0 = 0x5B then
        -- character class
        let (r, s) :=
          if !failed then (let (r, n) := DecodeRuneInString s; (r, s.drop n)) else (0, s)
        let chunk := chunk.drop 1
        -- possibly negated
        let negated := decide (chunk.length > 0 ∧ chunk.getD 0 0 = 0x5E)
        let chunk := if negated then chunk.drop 1 else chunk
        -- parse all ranges
        match matchRangeLoop r (chunk.length + 1) chunk false 0 with
        | .error err => ([], false, some err)
        | .ok (chunk, mtch) =>
          let failed := if mtch = negated then true else failed
          matchChunkLoop fuel chunk s failed
      else if c0 = 0x3F then
        let (s, failed) :=
          if !failed then
            (s.drop (DecodeRuneInString s).2, if s.getD 0 0 = Separator then true else failed)
          else (s, failed)
        matchChunkLoop fuel (chunk.drop 1) s failed
      else
        -- a backslash drops itself and falls through to the literal case
        let chunk := if c0 = 0x5C then chunk.drop 1 else chunk
        if c0 = 0x5C ∧ chunk.length = 0 then ([], false, some ErrBadPattern)
        else
          let (s, failed) :=
            if !failed then
              (s.drop 1, if chunk.getD 0 0 ≠ s.getD 0 0 then true else failed)
            else (s, failed)
          matchChunkLoop fuel (chunk.drop 1) s failed
    else if failed then ([], false, none)
    else (s, true, none)

/-- The function filepath.matchChunk: whether `chunk` matches the beginning
of `s`, and then the remainder of `s`; it returns `(rest, ok, err)`. -/
def matchChunk (chunk s : GoString) : GoString × Bool × Option GoError :=
  matchChunkLoop (chunk.length + 1) chunk s false

/-- The outcome of the star loop of filepath.Match. -/
inductive StarOutcome where
  /-- The chunk matched after a skip: `continue Pattern` with the new name. -/
  | matched (name : GoString)
  /-- The pattern is malformed: `return false, err`. -/
  | bad (err : GoError)
  /-- The loop ended without a match. -/
  | exhausted
  deriving DecidableEq, Repr

/-- The loop `for i := 0; i < len(name) && name[i] != Separator; i++` of
filepath.Match on `name[i:]`, which tries the chunk after skipping `i+1`
bytes; `patternEmpty` says that the chunk is the last one. -/
def matchStarLoop (chunk : GoString) (patternEmpty : Bool) : GoString → StarOutcome
  | [] => .exhausted
  | c :: rest =>
    if c = Separator then .exhausted
    else
      match matchChunk chunk rest with
      | (t, true, _) =>
        if patternEmpty ∧ t.length > 0 then matchStarLoop chunk patternEmpty rest
        else .matched t
      | (_, false, some err) => .bad err
      | (_, false, none) => matchStarLoop chunk patternEmpty rest

/-- The loop `Pattern` of filepath.Match. -/
def matchLoop : Nat → GoString → GoString → Bool × Option GoError
  | 0, _, _ => (false, some ErrBadPattern)
  | fuel + 1, pattern, name =>
    if pattern.length > 0 then
      let (star, chunk, pattern) := scanChunk pattern
      if star ∧ chunk = [] then
        -- a trailing star matches the rest of the name unless it has a slash
        (!Contains name [Separator], none)
      else
        -- look for a match at the current position
        match matchChunk chunk name with
        | (t, ok, err) =>
          if ok ∧ (t.length = 0 ∨ pattern.length > 0) then matchLoop fuel pattern t
          else if err.isSome then (false, err)
          else
            match (if star then matchStarLoop chunk (pattern.length = 0) name
                   else StarOutcome.exhausted) with
            | .matched t => matchLoop fuel pattern t
            | .bad e => (false, some e)
            | .exhausted => (false, none)
    else (name.length = 0, none)

/-- The function filepath.Match: whether `name` matches the shell file name
pattern; it returns `(matched, err)`. -/
def Match (pattern name : GoString) : Bool × Option GoError :=
  matchLoop (pattern.length + 1) pattern name

/-! ## The mcp-go library, as far as `NewFilesystemServer` uses it -/

/-- A property option of mcp-go: `mcp.Description`, `mcp.Required`, or
`mcp.Items` with the type of the items. -/
inductive PropertyOption where
  | Description (desc : String)
  | Required
  | Items (itemType : String)
  deriving DecidableEq, Repr

/-- A tool option of mcp-go: `mcp.WithDescription`, or the declaration of a
parameter with `mcp.WithString`, `mcp.WithNumber`, `mcp.WithBoolean` or
`mcp.WithArray`. -/
inductive ToolOption where
  | WithDescription (description : String)
  | WithString (name : String) (opts : List PropertyOption)
  | WithNumber (name : String) (opts : List PropertyOption)
  | WithBoolean (name : String) (opts : List PropertyOption)
  | WithArray (name : String) (opts : List PropertyOption)
  deriving DecidableEq, Repr

/-- The JSON schema of one parameter: the map that a property option fills
in. -/
structure PropertySchema where
  type : String
  description : Option String
  required : Bool
  items : Option String
  deriving DecidableEq, Repr

/-- The input schema of a tool: the declared properties, in the order of
their declaration, and the list `Required`. -/
structure ToolInputSchema where
  SchemaType : String
  Properties : List (String × PropertySchema)
  Required : List String
  deriving DecidableEq, Repr

/-- The type mcp.Tool. -/
structure Tool where
  Name : GoString
  Description : String
  InputSchema : ToolInputSchema
  deriving DecidableEq, Repr

/-- A property option applied to the schema of a parameter. -/
def PropertyOption.apply (schema : PropertySchema) : PropertyOption → PropertySchema
  | .Description desc => { schema with description := some desc }
  | .Required => { schema with required := true }
  | .Items itemType => { schema with items := some itemType }

/-- The assignment `m[name] = schema` on the properties of a tool. -/
def setProperty (m : List (String × PropertySchema)) (name : String) (schema : PropertySchema) :
    List (String × PropertySchema) :=
  if m.any (fun e => e.1 == name) then
    m.map (fun e => if e.1 == name then (name, schema) else e)
  else m ++ [(name, schema)]

/-- The body shared by `mcp.WithString` and its siblings: the options are
applied to a schema of the given type, a `required` mark is moved from the
schema to the list `Required` of the tool, and the schema is stored under the
name of the parameter. -/
def withProperty (type name : String) (opts : List PropertyOption) (t : Tool) : Tool :=
  let schema := opts.foldl PropertyOption.apply
    { type := type, description := none, required := false, items := none }
  let required := if schema.required then t.InputSchema.Required ++ [name]
    else t.InputSchema.Required
  { t with InputSchema :=
      { t.InputSchema with
        Properties := setProperty t.InputSchema.Properties name { schema with required := false }
        Required := required } }

/-- A tool option applied to a tool. -/
def ToolOption.apply (t : Tool) : ToolOption → Tool
  | .WithDescription description => { t with Description := description }
  | .WithString name opts => withProperty "string" name opts t
  | .WithNumber name opts => withProperty "number" name opts t
  | .WithBoolean name opts => withProperty "boolean" name opts t
  | .WithArray name opts => withProperty "array" name opts t

/-- The function mcp.NewTool: a tool of the given name with an empty object
schema, to which the options are applied in order. -/
def NewTool (name : GoString) (opts : List ToolOption) : Tool :=
  opts.foldl ToolOption.apply
    { Name := name, Description := "",
      InputSchema := { SchemaType := "object", Properties := [], Required := [] } }

/-- The type mcp.Resource, as built by `mcp.NewResource` with a description. -/
structure Resource where
  URI : String
  Name : String
  Description : String
  deriving DecidableEq, Repr

/-- The methods of the filesystem handler that are registered on the server. -/
inductive HandlerMethod where
  | HandleReadResource
  | HandleReadFile
  | HandleWriteFile
  | HandleListDirectory
  | HandleCreateDirectory
  | HandleCopyFile
  | HandleMoveFile
  | HandleSearchFiles
  | HandleGetFileInfo
  | HandleListAllowedDirectories
  | HandleReadMultipleFiles
  | HandleTree
  | HandleDeleteFile
  | HandleModifyFile
  | HandleSearchWithinFiles
  deriving DecidableEq, Repr

/-- The type server.MCPServer: its name, version and resource capabilities,
and the resources and tools registered on it, in the order of the calls of
`AddResource` and `AddTool`; a handler is a method of the handler value `h`. -/
structure MCPServer (H : Type) where
  name : String
  version : String
  resourceCapabilities : Option (Bool × Bool)
  resources : List (Resource × H × HandlerMethod)
  tools : List (Tool × H × HandlerMethod)

/-- The function server.NewMCPServer with the option
`server.WithResourceCapabilities`. -/
def NewMCPServer {H : Type} (name version : String) (subscribe listChanged : Bool) :
    MCPServer H :=
  { name := name, version := version, resourceCapabilities := some (subscribe, listChanged),
    resources := [], tools := [] }

/-- The method `AddResource` of the server. -/
def MCPServer.AddResource {H : Type} (s : MCPServer H) (resource : Resource)
    (handler : H × HandlerMethod) : MCPServer H :=
  { s with resources := s.resources ++ [(resource, handler)] }

/-- The method `AddTool` of the server. -/
def MCPServer.AddTool {H : Type} (s : MCPServer H) (tool : Tool)
    (handler : H × HandlerMethod) : MCPServer H :=
  { s with tools := s.tools ++ [(tool, handler)] }

/-! ## filesystemserver/server.go -/

/-- The variable `Version`. -/
def Version : String := "dev"

/-- The type `ToolConfig`: the configuration for enabled tools. -/
structure ToolConfig where
  EnabledTools : List GoString
  EnableAll : Bool
  deriving DecidableEq, Repr

/-- The loop `for _, pattern := range config.EnabledTools` of
`isToolEnabled`. -/
def isToolEnabledLoop (toolName : GoString) : List GoString → Bool
  | [] => false
  | pattern :: rest =>
    -- check for exact match
    if pattern = toolName then true
    -- check for wildcard match; the error of Match is discarded
    else if (Match pattern toolName).1 then true
    else isToolEnabledLoop toolName rest

/-- The function `isToolEnabled`: whether a tool should be enabled based on
the configuration; `none` is the nil pointer. -/
def isToolEnabled (toolName : GoString) (config : Option ToolConfig) : Bool :=
  match config with
  | none => true
  | some config =>
    if config.EnableAll then true
    else isToolEnabledLoop toolName config.EnabledTools

/-- The function `NewFilesystemServer`.  The package `handler` is a
parameter: `NewFilesystemHandler` is its constructor, of result type `H`. -/
def NewFilesystemServer {H : Type} (NewFilesystemHandler : List GoString → Except GoError H)
    (allowedDirs : List GoString) (toolConfig : Option ToolConfig) :
    Except GoError (MCPServer H) :=
  match NewFilesystemHandler allowedDirs with
  | .error err => .error err
  | .ok h =>
    let s : MCPServer H := NewMCPServer "secure-filesystem-server" Version true true
    -- Register resource handlers
    let s := s.AddResource
      { URI := "file://", Name := "File System",
        Description := "Access to files and directories on the local file system" }
      (h, .HandleReadResource)
    -- Register tool handlers
    let s := if isToolEnabled (str "read_file") toolConfig then
      s.AddTool (NewTool (str "read_file") [
        .WithDescription "Read the complete contents of a file from the file system.",
        .WithString "path" [.Description "Path to the file to read", .Required]])
        (h, .HandleReadFile) else s
    let s := if isToolEnabled (str "write_file") toolConfig then
      s.AddTool (NewTool (str "write_file") [
        .WithDescription "Create a new file or overwrite an existing file with new content.",
        .WithString "path" [.Description "Path where to write the file", .Required],
        .WithString "content" [.Description "Content to write to the file", .Required]])
        (h, .HandleWriteFile) else s
    let s := if isToolEnabled (str "list_directory") toolConfig then
      s.AddTool (NewTool (str "list_directory") [
        .WithDescription
          "Get a detailed listing of all files and directories in a specified path.",
        .WithString "path" [.Description "Path of the directory to list", .Required]])
        (h, .HandleListDirectory) else s
    let s := if isToolEnabled (str "create_directory") toolConfig then
      s.AddTool (NewTool (str "create_directory") [
        .WithDescription "Create a new directory or ensure a directory exists.",
        .WithString "path" [.Description "Path of the directory to create", .Required]])
        (h, .HandleCreateDirectory) else s
    let s := if isToolEnabled (str "copy_file") toolConfig then
      s.AddTool (NewTool (str "copy_file") [
        .WithDescription "Copy files and directories.",
        .WithString "source" [.Description "Source path of the file or directory", .Required],
        .WithString "destination" [.Description "Destination path", .Required]])
        (h, .HandleCopyFile) else s
    let s := if isToolEnabled (str "move_file") toolConfig then
      s.AddTool (NewTool (str "move_file") [
        .WithDescription "Move or rename files and directories.",
        .WithString "source" [.Description "Source path of the file or directory", .Required],
        .WithString "destination" [.Description "Destination path", .Required]])
        (h, .HandleMoveFile) else s
    let s := if isToolEnabled (str "search_files") toolConfig then
      s.AddTool (NewTool (str "search_files") [
        .WithDescription "Recursively search for files and directories matching a pattern.",
        .WithString "path" [.Description "Starting path for the search", .Required],
        .WithString "pattern"
          [.Description "Search pattern to match against file names", .Required]])
        (h, .HandleSearchFiles) else s
    let s := if isToolEnabled (str "get_file_info") toolConfig then
      s.AddTool (NewTool (str "get_file_info") [
        .WithDescription "Retrieve detailed metadata about a file or directory.",
        .WithString "path" [.Description "Path to the file or directory", .Required]])
        (h, .HandleGetFileInfo) else s
    let s := if isToolEnabled (str "list_allowed_directories") toolConfig then
      s.AddTool (NewTool (str "list_allowed_directories") [
        .WithDescription
          "Returns the list of directories that this server is allowed to access."])
        (h, .HandleListAllowedDirectories) else s
    let s := if isToolEnabled (str "read_multiple_files") toolConfig then
      s.AddTool (NewTool (str "read_multiple_files") [
        .WithDescription "Read the contents of multiple files in a single operation.",
        .WithArray "paths"
          [.Description "List of file paths to read", .Required, .Items "string"]])
        (h, .HandleReadMultipleFiles) else s
    let s := if isToolEnabled (str "tree") toolConfig then
      s.AddTool (NewTool (str "tree") [
        .WithDescription "Returns a hierarchical JSON representation of a directory structure.",
        .WithString "path" [.Description "Path of the directory to traverse", .Required],
        .WithNumber "depth" [.Description "Maximum depth to traverse (default: 3)"],
        .WithBoolean "follow_symlinks"
          [.Description "Whether to follow symbolic links (default: false)"]])
        (h, .HandleTree) else s
    let s := if isToolEnabled (str "delete_file") toolConfig then
      s.AddTool (NewTool (str "delete_file") [
        .WithDescription "Delete a file or directory from the file system.",
        .WithString "path" [.Description "Path to the file or directory to delete", .Required],
        .WithBoolean "recursive"
          [.Description "Whether to recursively delete directories (default: false)"]])
        (h, .HandleDeleteFile) else s
    let s := if isToolEnabled (str "modify_file") toolConfig then
      s.AddTool (NewTool (str "modify_file") [
        .WithDescription "Update file by finding and replacing text. Provides a simple pattern matching interface without needing exact character positions.",
        .WithString "path" [.Description "Path to the file to modify", .Required],
        .WithString "find"
          [.Description "Text to search for (exact match or regex pattern)", .Required],
        .WithString "replace" [.Description "Text to replace with", .Required],
        .WithBoolean "all_occurrences"
          [.Description "Replace all occurrences of the matching text (default: true)"],
        .WithBoolean "regex"
          [.Description "Treat the find pattern as a regular expression (default: false)"]])
        (h, .HandleModifyFile) else s
    let s := if isToolEnabled (str "search_within_files") toolConfig then
      s.AddTool (NewTool (str "search_within_files") [
        .WithDescription "Search for text within file contents. Unlike search_files which only searches file names, this tool scans the actual contents of text files for matching substrings. Binary files are automatically excluded from the search. Reports file paths and line numbers where matches are found.",
        .WithString "path"
          [.Description "Starting path for the search (must be a directory)", .Required],
        .WithString "substring"
          [.Description "Text to search for within file contents", .Required],
        .WithNumber "depth"
          [.Description "Maximum directory depth to search (default: unlimited)"],
        .WithNumber "max_results"
          [.Description "Maximum number of results to return (default: 1000)"]])
        (h, .HandleSearchWithinFiles) else s
    .ok s

/-! ## main.go -/

/-- The loop `for _, tool := range tools` of `parseToolConfig`, with the
slice `enabledTools` built so far. -/
def parseToolConfigLoop : List GoString → List GoString → List GoString
  | [], enabledTools => enabledTools
  | tool :: rest, enabledTools =>
    let tool := TrimSpace tool
    if tool ≠ [] then parseToolConfigLoop rest (enabledTools ++ [tool])
    else parseToolConfigLoop rest enabledTools

/-- The function `parseToolConfig`: it parses the tool configuration
string. -/
def parseToolConfig (toolsStr : GoString) : ToolConfig :=
  let toolsStr := TrimSpace toolsStr
  if toolsStr = [] ∨ toolsStr = str "all" then
    { EnabledTools := [], EnableAll := true }
  else
    let tools := Split toolsStr (str ",")
    let enabledTools := parseToolConfigLoop tools []
    { EnabledTools := enabledTools, EnableAll := false }

/-! ## strconv and flag, as far as `main` uses them -/

/-- The errors of `strconv.ParseInt` that `flag.numError` tells apart. -/
inductive NumError where
  | ErrSyntax
  | ErrRange
  deriving DecidableEq, Repr

/-- The functions of package strconv that package flag calls on the value of
an integer flag and in its messages; they are parameters of the embedding, and
nothing is assumed of them. -/
structure Strconv where
  /-- The call `strconv.ParseInt(s, 0, strconv.IntSize)` of `intValue.Set`. -/
  ParseInt : GoString → Except NumError Int
  /-- The verb `%q` on a string: `strconv.Quote`. -/
  Quote : GoString → GoString

/-- The function flag.numError on the error of `strconv.ParseInt`, with the
message of its result: `errParse` or `errRange`. -/
def numError : NumError → GoString
  | .ErrSyntax => str "parse error"
  | .ErrRange => str "value out of range"

/-- The function strconv.ParseBool; `none` is its syntax error. -/
def ParseBool (s : GoString) : Option Bool :=
  if s = str "1" ∨ s = str "t" ∨ s = str "T" ∨ s = str "true" ∨ s = str "TRUE"
      ∨ s = str "True" then some true
  else if s = str "0" ∨ s = str "f" ∨ s = str "F" ∨ s = str "false" ∨ s = str "FALSE"
      ∨ s = str "False" then some false
  else none

/-- The values of the five flags that `main` defines. -/
structure Flags where
  transport : GoString
  port : Int
  host : GoString
  tools : GoString
  help : Bool
  deriving DecidableEq, Repr

/-- The flags that `main` defines: the keys of the map `f.formal`. -/
inductive FlagName where
  | transport
  | port
  | host
  | tools
  | help
  deriving DecidableEq, Repr

/-- The look-up `f.formal[name]` of FlagSet.parseOne. -/
def formal (name : GoString) : Option FlagName :=
  if name = str "transport" then some .transport
  else if name = str "port" then some .port
  else if name = str "host" then some .host
  else if name = str "tools" then some .tools
  else if name = str "help" then some .help
  else none

/-- The method `Set` of the value of a flag: `stringValue.Set`,
`intValue.Set` and `boolValue.Set`; the error is the message of the error
that `Set` returns. -/
def FlagName.Set (sc : Strconv) (flags : Flags) (name : FlagName) (value : GoString) :
    Except GoString Flags :=
  match name with
  | .transport => .ok { flags with transport := value }
  | .host => .ok { flags with host := value }
  | .tools => .ok { flags with tools := value }
  | .port =>
    match sc.ParseInt value with
    | .ok v => .ok { flags with port := v }
    | .error err => .error (numError err)
  | .help =>
    match ParseBool value with
    | some v => .ok { flags with help := v }
    | none => .error (str "parse error")

/-- The search of the loop `for i := 1; i < len(name); i++` of
FlagSet.parseOne on `name[i:]`: the index of the first `=` of the name that is
not its first byte. -/
def equalsIndex : GoString → Nat → Option Nat
  | [], _ => none
  | c :: rest, i => if c = 0x3D then some i else equalsIndex rest (i + 1)

/-- The loop `for i := 1; i < len(name); i++` of FlagSet.parseOne, which
looks for an argument of the flag; it returns `(name, hasValue, value)`. -/
def splitValue (name : GoString) : GoString × Bool × GoString :=
  match equalsIndex (name.drop 1) 1 with
  | some i => (name.take i, true, name.drop (i + 1))
  | none => (name, false, [])

/-- The result of FlagSet.parseOne. -/
inductive ParseOneResult where
  /-- A flag was parsed: `return true, nil`, with the new values and `f.args`. -/
  | seen (flags : Flags) (args : List GoString)
  /-- The flags have ended: `return false, nil`, with `f.args`. -/
  | done (args : List GoString)
  /-- The flag `-h` or `-help` is not defined: `f.usage()` and
  `return false, ErrHelp`. -/
  | errHelp
  /-- A failure: `return false, f.failf(...)`, with the message. -/
  | failf (msg : GoString)
  deriving DecidableEq, Repr

/-- The method FlagSet.parseOne of package flag, on the flags of `main`: it
parses one flag of `f.args`. -/
def parseOne (sc : Strconv) (flags : Flags) (args : List GoString) : ParseOneResult :=
  match args with
  | [] => .done []
  | s :: rest =>
    if s.length < 2 ∨ s.getD 0 0 ≠ 0x2D then .done (s :: rest)
    else
      let numMinuses := if s.getD 1 0 = 0x2D then 2 else 1
      -- "--" terminates the flags
      if s.getD 1 0 = 0x2D ∧ s.length = 2 then .done rest
      else
        let name := s.drop numMinuses
        if name.length = 0 ∨ name.getD 0 0 = 0x2D ∨ name.getD 0 0 = 0x3D then
          .failf (str "bad flag syntax: " ++ s)
        else
          -- it's a flag. does it have an argument?
          let (name, hasValue, value) := splitValue name
          match formal name with
          | none =>
            -- special case for nice help message.
            if name = str "help" ∨ name = str "h" then .errHelp
            else .failf (str "flag provided but not defined: -" ++ name)
          | some .help =>
            -- special case: doesn't need an arg
            if hasValue then
              match FlagName.Set sc flags .help value with
              | .error err =>
                .failf (str "invalid boolean value " ++ sc.Quote value ++ str " for -" ++ name
                  ++ str ": " ++ err)
              | .ok flags => .seen flags rest
            else
              match FlagName.Set sc flags .help (str "true") with
              | .error err =>
                .failf (str "invalid boolean flag " ++ name ++ str ": " ++ err)
              | .ok flags => .seen flags rest
          | some flag =>
            -- It must have a value, which might be the next argument.
            let (hasValue, value, rest) :=
              match hasValue, rest with
              | false, next :: rest => (true, next, rest)
              | hasValue, rest => (hasValue, value, rest)
            if !hasValue then .failf (str "flag needs an argument: -" ++ name)
            else
              match FlagName.Set sc flags flag value with
              | .error err =>
                .failf (str "invalid value " ++ sc.Quote value ++ str " for flag -" ++ name
                  ++ str ": " ++ err)
              | .ok flags => .seen flags rest

/-- The result of `flag.Parse()`. -/
inductive ParseResult where
  /-- The call returns, with the values of the flags and `flag.Args()`. -/
  | ok (flags : Flags) (args : List GoString)
  /-- The error is `ErrHelp`, after the usage: `os.Exit(0)`. -/
  | errHelp
  /-- Another error, after its message and the usage: `os.Exit(2)`. -/
  | failf (msg : GoString)
  deriving DecidableEq, Repr

/-- The loop `for { seen, err := f.parseOne() ... }` of FlagSet.Parse, with
the error handling `ExitOnError` of `flag.CommandLine`. -/
def parseLoop (sc : Strconv) : Nat → Flags → List GoString → ParseResult
  | 0, flags, args => .ok flags args
  | fuel + 1, flags, args =>
    match parseOne sc flags args with
    | .seen flags args => parseLoop sc fuel flags args
    | .done args => .ok flags args
    | .errHelp => .errHelp
    | .failf msg => .failf msg

/-- The names of the tool catalog of the specification, in the order of its
table. -/
def toolCatalog : List GoString :=
  [ str "read_file", str "write_file", str "list_directory", str "create_directory",
    str "copy_file", str "move_file", str "search_files", str "get_file_info",
    str "list_allowed_directories", str "read_multiple_files", str "tree",
    str "delete_file", str "modify_file", str "search_within_files" ]

/-- The names of the tools registered on a server, in the order of their
registration. -/
def MCPServer.toolNames {H : Type} (s : MCPServer H) : List GoString :=
  s.tools.map (fun e => e.1.Name)

/-- The type of a parameter in the tool catalog of the specification. -/
inductive ParamType where
  | string
  | number
  | bool
  | arrayOfString
  deriving DecidableEq, Repr

/-- A parameter of a row of the tool catalog of the specification: its name,
its type when the row lists one, whether the row marks it required, and the
default when the row gives one. -/
structure SpecParam where
  name : String
  type : Option ParamType
  required : Bool
  default : Option String
  deriving DecidableEq, Repr

/-- A row of the tool catalog of the specification. -/
structure SpecTool where
  name : String
  params : List SpecParam
  deriving DecidableEq, Repr

/-- The tool catalog of the specification, row by row. -/
def specToolCatalog : List SpecTool :=
  [ { name := "read_file",
      params := [⟨"path", some .string, true, none⟩] },
    { name := "write_file",
      params := [⟨"path", some .string, true, none⟩, ⟨"content", some .string, true, none⟩] },
    { name := "list_directory", params := [⟨"path", none, true, none⟩] },
    { name := "create_directory", params := [⟨"path", none, true, none⟩] },
    { name := "copy_file",
      params := [⟨"source", none, true, none⟩, ⟨"destination", none, true, none⟩] },
    { name := "move_file",
      params := [⟨"source", none, true, none⟩, ⟨"destination", none, true, none⟩] },
    { name := "search_files",
      params := [⟨"path", none, true, none⟩, ⟨"pattern", none, true, none⟩] },
    { name := "get_file_info", params := [⟨"path", none, true, none⟩] },
    { name := "list_allowed_directories", params := [] },
    { name := "read_multiple_files",
      params := [⟨"paths", some .arrayOfString, true, none⟩] },
    { name := "tree",
      params := [⟨"path", none, true, none⟩, ⟨"depth", some .number, false, some "3"⟩,
        ⟨"follow_symlinks", some .bool, false, some "false"⟩] },
    { name := "delete_file",
      params := [⟨"path", none, true, none⟩, ⟨"recursive", some .bool, false, some "false"⟩] },
    { name := "modify_file",
      params := [⟨"path", none, true, none⟩, ⟨"find", none, true, none⟩,
        ⟨"replace", none, true, none⟩, ⟨"all_occurrences", some .bool, false, some "true"⟩,
        ⟨"regex", some .bool, false, some "false"⟩] },
    { name := "search_within_files",
      params := [⟨"path", none, true, none⟩, ⟨"substring", none, true, none⟩,
        ⟨"depth", some .number, false, some "unlimited"⟩,
        ⟨"max_results", some .number, false, some "1000"⟩] } ]

/-- Whether the declared schema of a parameter has the type that the
specification lists. -/
def schemaHasType (schema : PropertySchema) : ParamType → Bool
  | .string => schema.type == "string"
  | .number => schema.type == "number"
  | .bool => schema.type == "boolean"
  | .arrayOfString => schema.type == "array" && schema.items == some "string"

/-- Whether a declared parameter agrees with a parameter of the
specification: the same name, the listed type when there is one, in the list
`Required` of the tool when marked required, and not in it when the
specification gives a default. -/
def paramAgrees (required : List String) (declared : String × PropertySchema)
    (p : SpecParam) : Bool :=
  declared.1 == p.name
    && (match p.type with
        | some ty => schemaHasType declared.2 ty
        | none => true)
    && (!p.required || required.contains p.name)
    && (p.default.isNone || !required.contains p.name)

/-- Whether the declared parameters are exactly the parameters of the
specification, one by one. -/
def paramsAgree (required : List String) :
    List (String × PropertySchema) → List SpecParam → Bool
  | [], [] => true
  | d :: ds, p :: ps => paramAgrees required d p && paramsAgree required ds ps
  | _, _ => false

/-- Whether a registered tool agrees with a row of the specification. -/
def toolAgrees (t : Tool) (row : SpecTool) : Bool :=
  t.Name == str row.name
    && paramsAgree t.InputSchema.Required t.InputSchema.Properties row.params
    && t.InputSchema.Required.all (fun n => t.InputSchema.Properties.any (fun d => d.1 == n))

/-- Whether the registered tools agree with the tool catalog of the
specification, row by row. -/
def catalogAgrees : List Tool → List SpecTool → Bool
  | [], [] => true
  | t :: ts, row :: rows => toolAgrees t row && catalogAgrees ts rows
  | _, _ => false

/-- The resource that `NewFilesystemServer` registers. -/
def fileResource : Resource :=
  { URI := "file://", Name := "File System",
    Description := "Access to files and directories on the local file system" }

/-- The tools registered on the result of `NewFilesystemServer`, without
their handlers; none when the construction failed. -/
def registeredTools {H : Type} (r : Except GoError (MCPServer H)) : List Tool :=
  match r with
  | .ok s => s.tools.map (fun e => e.1)
  | .error _ => []

/-- The tools that `NewFilesystemServer` registers under the nil
configuration. -/
def allTools : List Tool :=
  registeredTools (@NewFilesystemServer Unit (fun _ => .ok ()) [] none)

/-! ## Definitions of the specification and of the proofs -/

/-- A string that is empty or starts with a byte that is no continuation
byte. -/
def startsRune (w : GoString) : Prop :=
  w = [] ∨ ∃ c w', w = c :: w' ∧ (c < 0x80 ∨ 0xBF < c)


/-- The pieces of a string split at every comma (byte 0x2C), in the words of
the specification: a comma ends the current piece and starts the next. -/
def splitAtEveryComma : GoString → List GoString
  | [] => [[]]
  | c :: t =>
    if c = 0x2C then [] :: splitAtEveryComma t
    else
      match splitAtEveryComma t with
      | [] => [[c]]
      | p :: ps => (c :: p) :: ps

/-- The strings of a list joined by commas. -/
def joinWithCommas : List GoString → GoString
  | [] => []
  | x :: xs => x ++ xs.flatMap (fun p => 0x2C :: p)

/-- The white space string of a list of runes: their UTF-8 encodings, in
order. -/
def whitespace (rs : List Nat) : GoString :=
  rs.flatMap (fun r => AppendRune [] r)

/-- The string of a list of separators, each a comma (`none`) or a rune
(`some r`). -/
def sepString (items : List (Option Nat)) : GoString :=
  items.flatMap (fun item =>
    match item with
    | none => [0x2C]
    | some r => AppendRune [] r)

/-- A string that starts with an ASCII byte that is no space and ends with an
ASCII byte that is no space. -/
def tight (w : GoString) : Prop :=
  (∃ a x, w = a :: x ∧ a < 0x80 ∧ IsSpace a = false)
    ∧ (∃ y b, w = y ++ [b] ∧ b < 0x80 ∧ IsSpace b = false)

/-- The runes on which unicode.IsSpace is true. -/
def spaceRunes : List Nat :=
  [ 0x09, 0x0A, 0x0B, 0x0C, 0x0D, 0x20, 0x85, 0xA0, 0x1680, 0x2000, 0x2001, 0x2002, 0x2003,
    0x2004, 0x2005, 0x2006, 0x2007, 0x2008, 0x2009, 0x200A, 0x2028, 0x2029, 0x202F, 0x205F,
    0x3000 ]

/-- What the proofs use of the encoding of a space rune: it decodes to the
rune, forward at the start of a string and backward at its end, and its bytes
are no commas. -/
def spaceToken (r : Nat) : Prop :=
  (∀ x, DecodeRuneInString (AppendRune [] r ++ x) = (r, (AppendRune [] r).length))
  ∧ (∀ x, DecodeLastRuneInString (x ++ AppendRune [] r) = (r, (AppendRune [] r).length))
  ∧ AppendRune [] r ≠ []
  ∧ ∀ b ∈ AppendRune [] r, b ≠ 0x2C ∧ (b ≤ 0x20 ∨ 0x80 ≤ b)

/-- A name of a tools string with the white space around it: the runes
before the name and the runes after it. -/
structure PaddedName where
  before : List Nat
  name : GoString
  after : List Nat

/-- The bytes of a name with the white space around it. -/
def PaddedName.bytes (e : PaddedName) : GoString :=
  whitespace e.before ++ e.name ++ whitespace e.after

/-- The runes around the name are spaces. -/
def PaddedName.ok (e : PaddedName) : Prop :=
  (∀ r ∈ e.before, IsSpace r = true) ∧ (∀ r ∈ e.after, IsSpace r = true)

/-- Whether a string starts with an ASCII byte that is no space and ends with
an ASCII byte that is no space. -/
def tightCheck (w : GoString) : Bool :=
  match w.head?, w.getLast? with
  | some a, some b => decide (a < 0x80) && !IsSpace a && decide (b < 0x80) && !IsSpace b
  | _, _ => false

/-! ## Theorems -/

/-! ### unicode/utf8 -/

theorem first_spec (b : Nat) :
    (b < 0x80 ∧ first b = 0xF0) ∨ ((0x80 ≤ b ∧ b < 0xC2 ∨ 0xF4 < b) ∧ first b = 0xF1)
    ∨ (0xC2 ≤ b ∧ b < 0xE0 ∧ first b = 0x02) ∨ (b = 0xE0 ∧ first b = 0x13)
    ∨ ((0xE1 ≤ b ∧ b < 0xED ∨ b = 0xEE ∨ b = 0xEF) ∧ first b = 0x03)
    ∨ (b = 0xED ∧ first b = 0x23)
    ∨ (b = 0xF0 ∧ first b = 0x34) ∨ (0xF1 ≤ b ∧ b < 0xF4 ∧ first b = 0x04)
    ∨ (b = 0xF4 ∧ first b = 0x44) := by
  by_cases h1 : b < 0x80
  · exact Or.inl ⟨h1, by simp [first, as, h1]⟩
  by_cases h2 : b < 0xC2
  · exact Or.inr (Or.inl ⟨Or.inl ⟨by omega, h2⟩, by simp [first, xx, h1, h2]⟩)
  by_cases h3 : b < 0xE0
  · exact Or.inr (Or.inr (Or.inl ⟨by omega, h3, by simp [first, s1, h1, h2, h3]⟩))
  by_cases h4 : b = 0xE0
  · exact Or.inr (Or.inr (Or.inr (Or.inl ⟨h4, by subst h4; decide⟩)))
  by_cases h5 : b < 0xED
  · exact Or.inr (Or.inr (Or.inr (Or.inr (Or.inl
      ⟨Or.inl ⟨by omega, h5⟩, by simp [first, s3, h1, h2, h3, h4, h5]⟩))))
  by_cases h6 : b = 0xED
  · exact Or.inr (Or.inr (Or.inr (Or.inr (Or.inr (Or.inl ⟨h6, by subst h6; decide⟩)))))
  by_cases h7 : b < 0xF0
  · exact Or.inr (Or.inr (Or.inr (Or.inr (Or.inl
      ⟨Or.inr (by omega), by simp [first, s3, h1, h2, h3, h4, h5, h6, h7]⟩))))
  by_cases h8 : b = 0xF0
  · exact Or.inr (Or.inr (Or.inr (Or.inr (Or.inr (Or.inr (Or.inl ⟨h8, by subst h8; decide⟩))))))
  by_cases h9 : b < 0xF4
  · exact Or.inr (Or.inr (Or.inr (Or.inr (Or.inr (Or.inr (Or.inr (Or.inl
      ⟨by omega, h9, by simp [first, s6, h1, h2, h3, h4, h5, h6, h7, h8, h9]⟩)))))))
  by_cases h10 : b = 0xF4
  · exact Or.inr (Or.inr (Or.inr (Or.inr (Or.inr (Or.inr (Or.inr (Or.inr
      ⟨h10, by subst h10; decide⟩)))))))
  · exact Or.inr (Or.inl ⟨Or.inr (by omega),
      by simp [first, xx, h1, h2, h3, h4, h5, h6, h7, h8, h9, h10]⟩)

theorem acceptRanges_first (b : Nat) (h1 : 0xC2 ≤ b) (h2 : b ≤ 0xF4) :
    0x80 ≤ (acceptRanges (first b >>> 4)).1 ∧ (acceptRanges (first b >>> 4)).2 ≤ 0xBF := by
  rcases first_spec b with ⟨hb, hf⟩ | ⟨hb, hf⟩ | ⟨hb, hb2, hf⟩ | ⟨hb, hf⟩ | ⟨hb, hf⟩ | ⟨hb, hf⟩
    | ⟨hb, hf⟩ | ⟨hb, hb2, hf⟩ | ⟨hb, hf⟩ <;> first | omega | (rw [hf]; decide)

theorem DecodeRuneInString_cons (s0 : Nat) (t : GoString) :
    DecodeRuneInString (s0 :: t) =
      if s0 < 0x80 then (s0, 1)
      else if s0 < 0xC2 ∨ 0xF4 < s0 then (RuneError, 1)
      else if s0 < 0xE0 then
        (match t with
         | b1 :: _ =>
           if 0x80 ≤ b1 ∧ b1 ≤ 0xBF then (((s0 &&& mask2) <<< 6) ||| (b1 &&& maskx), 2)
           else (RuneError, 1)
         | [] => (RuneError, 1))
      else if s0 < 0xF0 then
        (match t with
         | b1 :: b2 :: _ =>
           if (acceptRanges (first s0 >>> 4)).1 ≤ b1 ∧ b1 ≤ (acceptRanges (first s0 >>> 4)).2
               ∧ 0x80 ≤ b2 ∧ b2 ≤ 0xBF then
             (((s0 &&& mask3) <<< 12) ||| ((b1 &&& maskx) <<< 6) ||| (b2 &&& maskx), 3)
           else (RuneError, 1)
         | _ => (RuneError, 1))
      else
        (match t with
         | b1 :: b2 :: b3 :: _ =>
           if (acceptRanges (first s0 >>> 4)).1 ≤ b1 ∧ b1 ≤ (acceptRanges (first s0 >>> 4)).2
               ∧ 0x80 ≤ b2 ∧ b2 ≤ 0xBF ∧ 0x80 ≤ b3 ∧ b3 ≤ 0xBF then
             (((s0 &&& mask4) <<< 18) ||| ((b1 &&& maskx) <<< 12) ||| ((b2 &&& maskx) <<< 6)
                ||| (b3 &&& maskx), 4)
           else (RuneError, 1)
         | _ => (RuneError, 1)) := by
  have e1 : (2 &&& 7 : Nat) = 2 := by decide
  have e2 : (0x13 &&& 7 : Nat) = 3 := by decide
  have e3 : (0x03 &&& 7 : Nat) = 3 := by decide
  have e4 : (0x23 &&& 7 : Nat) = 3 := by decide
  have e5 : (0x34 &&& 7 : Nat) = 4 := by decide
  have e6 : (0x04 &&& 7 : Nat) = 4 := by decide
  have e7 : (0x44 &&& 7 : Nat) = 4 := by decide
  rcases first_spec s0 with ⟨hb, hf⟩ | ⟨hb, hf⟩ | ⟨hb, hb2, hf⟩ | ⟨hb, hf⟩ | ⟨hb, hf⟩ | ⟨hb, hf⟩
    | ⟨hb, hf⟩ | ⟨hb, hb2, hf⟩ | ⟨hb, hf⟩
  · simp +decide [DecodeRuneInString, hf, as, hb]
  · have h1 : ¬ s0 < 0x80 := by omega
    have h2 : s0 < 0xC2 ∨ 0xF4 < s0 := by omega
    simp +decide [DecodeRuneInString, hf, as, h1, h2]
  · have h1 : ¬ s0 < 0x80 := by omega
    have h2 : ¬ (s0 < 0xC2 ∨ 0xF4 < s0) := by omega
    cases t with
    | nil => simp +decide [DecodeRuneInString, hf, as, h1, h2, hb2]
    | cons b1 t =>
      simp +decide [DecodeRuneInString, hf, as, h1, h2, hb2, acceptRanges, locb, hicb, e1]
      split_ifs <;> first | rfl | omega
  all_goals
    have h1 : ¬ s0 < 0x80 := by omega
    have h2 : ¬ (s0 < 0xC2 ∨ 0xF4 < s0) := by omega
    have h3 : ¬ s0 < 0xE0 := by omega
    have h4 : (s0 < 0xF0) ∨ ¬ (s0 < 0xF0) := by omega
    rcases h4 with h4 | h4
    all_goals
      first
        | (exfalso; omega)
        | (rcases t with _ | ⟨b1, _ | ⟨b2, _ | ⟨b3, t⟩⟩⟩ <;>
            simp +decide [DecodeRuneInString, hf, as, h1, h2, h3, h4, acceptRanges, locb, hicb,
              e2, e3, e4, e5, e6, e7] <;>
            split_ifs <;> first | rfl | omega)

theorem DecodeRuneInString_nil : DecodeRuneInString [] = (RuneError, 0) := by
  simp [DecodeRuneInString]

theorem DecodeRuneInString_ascii (b : Nat) (t : GoString) (hb : b < 0x80) :
    DecodeRuneInString (b :: t) = (b, 1) := by
  rw [DecodeRuneInString_cons, if_pos hb]

theorem DecodeRuneInString_single (b : Nat) (hb : 0x80 ≤ b) :
    DecodeRuneInString [b] = (RuneError, 1) := by
  rw [DecodeRuneInString_cons]
  split_ifs <;> first | rfl | omega

theorem IsSpace_RuneError : IsSpace RuneError = false := by decide

/-- The size that DecodeRuneInString returns is at least 1 and at most the
length of a non-empty string. -/
theorem DecodeRuneInString_size (s : GoString) (hs : s ≠ []) :
    1 ≤ (DecodeRuneInString s).2 ∧ (DecodeRuneInString s).2 ≤ s.length := by
  rcases s with _ | ⟨s0, t⟩
  · exact absurd rfl hs
  · rw [DecodeRuneInString_cons]
    rcases t with _ | ⟨b1, _ | ⟨b2, _ | ⟨b3, t⟩⟩⟩ <;> simp only [List.length_cons, List.length_nil] <;>
      split_ifs <;> simp

/-- A first byte followed by nothing, or by a byte that is no continuation
byte, decodes with size 1. -/
theorem DecodeRuneInString_size_one (b : Nat) (w : GoString)
    (hw : w = [] ∨ ∃ c w', w = c :: w' ∧ (c < 0x80 ∨ 0xBF < c)) :
    (DecodeRuneInString (b :: w)).2 = 1 := by
  rw [DecodeRuneInString_cons]
  by_cases h1 : b < 0x80
  · simp [h1]
  by_cases h2 : b < 0xC2 ∨ 0xF4 < b
  · simp [h1, h2]
  have hr := acceptRanges_first b (by omega) (by omega)
  rcases hw with hw | ⟨c, w', hw, hc⟩
  · subst hw
    simp only [h1, h2, if_false]
    split_ifs <;> rfl
  · subst hw
    simp only [h1, h2, if_false]
    rcases w' with _ | ⟨b2, _ | ⟨b3, t⟩⟩ <;> dsimp only <;> split_ifs <;>
      first | rfl | (exfalso; omega)

/-- Bytes appended to a string do not change its first rune, unless the
string alone decodes to an error of size 1. -/
theorem DecodeRuneInString_append (s x : GoString) (hs : s ≠ []) :
    DecodeRuneInString (s ++ x) = DecodeRuneInString s
      ∨ DecodeRuneInString s = (RuneError, 1) := by
  rcases s with _ | ⟨s0, t⟩
  · exact absurd rfl hs
  · rw [List.cons_append, DecodeRuneInString_cons, DecodeRuneInString_cons]
    by_cases h1 : s0 < 0x80
    · simp only [h1, if_true, true_or]
    by_cases h2 : s0 < 0xC2 ∨ 0xF4 < s0
    · simp only [h1, h2, if_true, if_false, true_or]
    by_cases h3 : s0 < 0xE0
    · simp only [h1, h2, h3, if_true, if_false]
      rcases t with _ | ⟨b1, t⟩
      · exact Or.inr rfl
      · exact Or.inl rfl
    by_cases h4 : s0 < 0xF0
    · simp only [h1, h2, h3, h4, if_true, if_false]
      rcases t with _ | ⟨b1, _ | ⟨b2, t⟩⟩
      · exact Or.inr rfl
      · exact Or.inr rfl
      · exact Or.inl rfl
    · simp only [h1, h2, h3, h4, if_false]
      rcases t with _ | ⟨b1, _ | ⟨b2, _ | ⟨b3, t⟩⟩⟩
      · exact Or.inr rfl
      · exact Or.inr rfl
      · exact Or.inr rfl
      · exact Or.inl rfl

/-- A rune of size at least 2 starts with a first byte from 0xC2 to 0xF4. -/
theorem DecodeRuneInString_first_byte (s0 : Nat) (t : GoString)
    (h : 2 ≤ (DecodeRuneInString (s0 :: t)).2) : 0xC2 ≤ s0 ∧ s0 ≤ 0xF4 := by
  rw [DecodeRuneInString_cons] at h
  by_cases h1 : s0 < 0x80
  · simp [h1] at h
  by_cases h2 : s0 < 0xC2 ∨ 0xF4 < s0
  · simp [h1, h2] at h
  omega

/-- A string whose first rune is a space is not empty and starts with a byte
that is no continuation byte. -/
theorem head_of_IsSpace (s : GoString) (h : IsSpace (DecodeRuneInString s).1 = true) :
    ∃ c w, s = c :: w ∧ (c < 0x80 ∨ 0xBF < c) := by
  rcases s with _ | ⟨s0, t⟩
  · rw [DecodeRuneInString_nil, IsSpace_RuneError] at h
    exact absurd h (by decide)
  · refine ⟨s0, t, rfl, ?_⟩
    by_cases h1 : s0 < 0x80
    · exact Or.inl h1
    by_cases h2 : s0 < 0xC2 ∨ 0xF4 < s0
    · rw [DecodeRuneInString_cons] at h
      simp only [h1, h2, if_true, if_false, IsSpace_RuneError] at h
      exact absurd h (by decide)
    · omega

theorem lastRuneStartLoop_le (s : GoString) (lim : Int) (fuel : Nat) (start : Int) :
    lastRuneStartLoop s lim fuel start ≤ start := by
  induction fuel generalizing start with
  | zero => simp [lastRuneStartLoop]
  | succ n ih =>
    unfold lastRuneStartLoop
    split_ifs
    · exact le_refl _
    · have := ih (start - 1)
      omega
    · exact le_refl _

theorem DecodeLastRuneInString_nil : DecodeLastRuneInString [] = (RuneError, 0) := by
  simp [DecodeLastRuneInString]

theorem getD_last (x : GoString) (b : Nat) :
    (x ++ [b]).getD (((x ++ [b]).length : Int) - 1).toNat 0 = b := by
  have : (((x ++ [b]).length : Int) - 1).toNat = x.length := by
    simp
  rw [this]
  simp [List.getD_eq_getElem?_getD]

theorem DecodeLastRuneInString_ascii (x : GoString) (b : Nat) (hb : b < 0x80) :
    DecodeLastRuneInString (x ++ [b]) = (b, 1) := by
  unfold DecodeLastRuneInString
  simp only [getD_last]
  simp [RuneSelf, hb]

theorem DecodeLastRuneInString_spec (x : GoString) (b : Nat) (hb : 0x80 ≤ b) :
    DecodeLastRuneInString (x ++ [b]) = (RuneError, 1)
    ∨ ∃ k, 2 ≤ (DecodeLastRuneInString (x ++ [b])).2
        ∧ k + (DecodeLastRuneInString (x ++ [b])).2 = x.length + 1
        ∧ DecodeRuneInString ((x ++ [b]).drop k) = DecodeLastRuneInString (x ++ [b]) := by
  unfold DecodeLastRuneInString
  simp only [getD_last]
  have h0 : ¬ (x ++ [b]).length = 0 := by simp
  have h1 : ¬ b < RuneSelf := by simp [RuneSelf]; omega
  simp only [h0, h1, if_false, List.take_length]
  have hle := lastRuneStartLoop_le (x ++ [b])
    (if ((x ++ [b]).length : Int) - (UTFMax : Int) < 0 then 0
      else ((x ++ [b]).length : Int) - (UTFMax : Int)) UTFMax (((x ++ [b]).length : Int) - 1 - 1)
  generalize lastRuneStartLoop (x ++ [b])
    (if ((x ++ [b]).length : Int) - (UTFMax : Int) < 0 then 0
      else ((x ++ [b]).length : Int) - (UTFMax : Int)) UTFMax (((x ++ [b]).length : Int) - 1 - 1)
      = st at hle ⊢
  obtain ⟨k, hk, hkx⟩ : ∃ k : Nat, (if st < 0 then 0 else st) = (k : Int) ∧ k ≤ x.length := by
    refine ⟨(if st < 0 then 0 else st).toNat, ?_, ?_⟩
    · split_ifs <;> omega
    · simp only [List.length_append, List.length_singleton] at hle
      split_ifs <;> omega
  rw [hk]
  simp only [Int.toNat_ofNat]
  by_cases hc : (k : Int) + ((DecodeRuneInString (List.drop k (x ++ [b]))).2 : Int)
      ≠ ((x ++ [b]).length : Int)
  · left
    rw [if_pos hc]
  · rw [if_neg hc]
    simp only [ne_eq, not_not, List.length_append, List.length_singleton] at hc
    by_cases h2 : 2 ≤ (DecodeRuneInString (List.drop k (x ++ [b]))).2
    · right
      exact ⟨k, h2, by omega, rfl⟩
    · left
      have hne : List.drop k (x ++ [b]) ≠ [] := by
        intro h
        have := congrArg List.length h
        simp at this
        omega
      have hsz := DecodeRuneInString_size _ hne
      have hkeq : k = x.length := by omega
      subst hkeq
      simp only [List.drop_left] at *
      rw [DecodeRuneInString_single b hb]

/-- The shape of the last rune of a non-empty string: an ASCII byte, an
error of size 1, or a rune of size at least 2 that the forward decoder reads
from the last bytes. -/
theorem DecodeLastRuneInString_cases (s : GoString) (hs : s ≠ []) :
    (∃ x b, s = x ++ [b] ∧ b < 0x80 ∧ DecodeLastRuneInString s = (b, 1))
    ∨ (∃ x b, s = x ++ [b] ∧ 0x80 ≤ b ∧ DecodeLastRuneInString s = (RuneError, 1))
    ∨ (∃ x enc, s = x ++ enc ∧ 2 ≤ enc.length
        ∧ DecodeRuneInString enc = DecodeLastRuneInString s
        ∧ (DecodeLastRuneInString s).2 = enc.length) := by
  obtain ⟨x, b, rfl⟩ : ∃ x b, s = x ++ [b] :=
    ⟨s.dropLast, s.getLast hs, (List.dropLast_append_getLast hs).symm⟩
  by_cases hb : b < 0x80
  · exact Or.inl ⟨x, b, rfl, hb, DecodeLastRuneInString_ascii x b hb⟩
  · rcases DecodeLastRuneInString_spec x b (by omega) with h | ⟨k, h2, hk, hd⟩
    · exact Or.inr (Or.inl ⟨x, b, rfl, by omega, h⟩)
    · refine Or.inr (Or.inr ⟨(x ++ [b]).take k, (x ++ [b]).drop k,
        (List.take_append_drop k _).symm, ?_, hd, ?_⟩)
      · simp only [List.length_drop, List.length_append, List.length_singleton]
        omega
      · simp only [List.length_drop, List.length_append, List.length_singleton]
        omega

theorem DecodeLastRuneInString_size (s : GoString) (hs : s ≠ []) :
    1 ≤ (DecodeLastRuneInString s).2 ∧ (DecodeLastRuneInString s).2 ≤ s.length := by
  rcases DecodeLastRuneInString_cases s hs with ⟨x, b, rfl, _, h⟩ | ⟨x, b, rfl, _, h⟩
    | ⟨x, enc, rfl, h2, _, h⟩
  · rw [h]; simp
  · rw [h]; simp
  · rw [h]; simp; omega

theorem lastRuneStartLoop_hit (s : GoString) (lim : Int) (fuel : Nat) (start : Int)
    (h1 : start ≥ lim) (h2 : RuneStart (s.getD start.toNat 0) = true) :
    lastRuneStartLoop s lim (fuel + 1) start = start := by
  unfold lastRuneStartLoop
  rw [if_pos h1, if_pos h2]

theorem lastRuneStartLoop_miss (s : GoString) (lim : Int) (fuel : Nat) (start : Int)
    (h1 : start ≥ lim) (h2 : RuneStart (s.getD start.toNat 0) = false) :
    lastRuneStartLoop s lim (fuel + 1) start = lastRuneStartLoop s lim fuel (start - 1) := by
  conv_lhs => unfold lastRuneStartLoop
  rw [if_pos h1, if_neg (by rw [h2]; exact Bool.false_ne_true)]

theorem getD_append_length (x y : GoString) (b : Nat) :
    (x ++ b :: y).getD x.length 0 = b := by
  induction x with
  | nil => rfl
  | cons c x ih => simpa using ih

/-- The last rune of a string that ends with a two-byte encoding. -/
theorem DecodeLastRuneInString_two (x : GoString) (a b r : Nat) (ha : RuneStart a = true)
    (hd : DecodeRuneInString [a, b] = (r, 2)) :
    DecodeLastRuneInString (x ++ [a, b]) = (r, 2) := by
  have hb : 0x80 ≤ b := by
    rw [DecodeRuneInString_cons] at hd
    dsimp only at hd
    split_ifs at hd <;> simp at hd; omega
  have hlen : (x ++ [a, b]).length = x.length + 2 := by simp
  have hlast : (x ++ [a, b]).getD (x.length + 1) 0 = b := by
    have := getD_append_length (x ++ [a]) [] b
    simpa using this
  unfold DecodeLastRuneInString
  have e1 : (((x.length + 2 : Nat) : Int) - 1).toNat = x.length + 1 := by omega
  have e2 : ((x.length + 2 : Nat) : Int) - 1 - 1 = (x.length : Int) := by omega
  have h1 : ¬ b < RuneSelf := by simp [RuneSelf]; omega
  have h0 : ¬ (x.length + 2 = 0) := by omega
  have htake : List.take (x.length + 2) (x ++ [a, b]) = x ++ [a, b] :=
    List.take_of_length_le (by simp)
  simp only [hlen, e1, e2, hlast, h0, h1, if_false, htake]
  rw [UTFMax, lastRuneStartLoop_hit]
  · have hn : ¬ ((x.length : Int) < 0) := by omega
    simp only [hn, if_false, Int.toNat_ofNat, List.drop_left, hd]
    first | rfl | simp
  · split_ifs <;> omega
  · rw [Int.toNat_ofNat, getD_append_length]
    exact ha

/-- The last rune of a string that ends with a three-byte encoding. -/
theorem DecodeLastRuneInString_three (x : GoString) (a b c r : Nat) (ha : RuneStart a = true)
    (hb : RuneStart b = false) (hd : DecodeRuneInString [a, b, c] = (r, 3)) :
    DecodeLastRuneInString (x ++ [a, b, c]) = (r, 3) := by
  have hc : 0x80 ≤ c := by
    rw [DecodeRuneInString_cons] at hd
    dsimp only at hd
    split_ifs at hd <;> simp at hd <;> omega
  have hlen : (x ++ [a, b, c]).length = x.length + 3 := by simp
  have hlast : (x ++ [a, b, c]).getD (x.length + 2) 0 = c := by
    have := getD_append_length (x ++ [a, b]) [] c
    simpa using this
  have hmid : (x ++ [a, b, c]).getD (x.length + 1) 0 = b := by
    have := getD_append_length (x ++ [a]) [c] b
    simpa using this
  unfold DecodeLastRuneInString
  have e1 : (((x.length + 3 : Nat) : Int) - 1).toNat = x.length + 2 := by omega
  have e2 : ((x.length + 3 : Nat) : Int) - 1 - 1 = (x.length : Int) + 1 := by omega
  have h1 : ¬ c < RuneSelf := by simp [RuneSelf]; omega
  have h0 : ¬ (x.length + 3 = 0) := by omega
  have htake : List.take (x.length + 3) (x ++ [a, b, c]) = x ++ [a, b, c] :=
    List.take_of_length_le (by simp)
  simp only [hlen, e1, e2, hlast, h0, h1, if_false, htake]
  rw [UTFMax, lastRuneStartLoop_miss, lastRuneStartLoop_hit]
  · have hn : ¬ ((x.length : Int) < 0) := by omega
    have e3 : (x.length : Int) + 1 - 1 = (x.length : Int) := by omega
    simp only [e3, hn, if_false, Int.toNat_ofNat, List.drop_left, hd]
    first | rfl | simp
  · split_ifs <;> omega
  · have : ((x.length : Int) + 1 - 1).toNat = x.length := by omega
    rw [this, getD_append_length]
    exact ha
  · split_ifs <;> omega
  · have : ((x.length : Int) + 1).toNat = x.length + 1 := by omega
    rw [this, hmid]
    exact hb

/-! ### TrimLeftFunc -/

theorem indexFuncLoop_fuel (f : Nat → Bool) (truth : Bool) (n : Nat) :
    ∀ s : GoString, s.length ≤ n → ∀ fuel i, s.length ≤ fuel →
      indexFuncLoop f truth fuel s i = (indexFuncLoop f truth s.length s 0).map (· + i) := by
  induction n with
  | zero =>
    intro s hs fuel i _
    have : s = [] := List.length_eq_zero.mp (by omega)
    subst this
    cases fuel <;> simp [indexFuncLoop]
  | succ n ih =>
    intro s hs fuel i hfuel
    rcases s with _ | ⟨c, t⟩
    · cases fuel <;> simp [indexFuncLoop]
    · obtain ⟨fuel, rfl⟩ : ∃ k, fuel = k + 1 := ⟨fuel - 1, by simp at hfuel; omega⟩
      have hsz := DecodeRuneInString_size (c :: t) (by simp)
      simp only [List.length_cons] at hs hfuel hsz ⊢
      simp only [indexFuncLoop, List.length_cons, Nat.add_eq_zero, one_ne_zero, and_false,
        if_false]
      by_cases hf : (f (DecodeRuneInString (c :: t)).1 == truth) = true
      · simp [hf]
      · simp only [hf, if_false]
        have hdl : ((c :: t).drop (DecodeRuneInString (c :: t)).2).length
            = t.length + 1 - (DecodeRuneInString (c :: t)).2 := by
          simp only [List.length_drop, List.length_cons]
        rw [ih _ (by omega) fuel _ (by omega), ih _ (by omega) t.length _ (by omega)]
        cases indexFuncLoop f truth (List.drop (DecodeRuneInString (c :: t)).2 (c :: t)).length
            (List.drop (DecodeRuneInString (c :: t)).2 (c :: t)) 0 with
        | none => simp
        | some k =>
          simp only [Option.map_some', Bool.false_eq_true, if_false, Option.some.injEq]
          omega

theorem TrimLeftFunc_nil (f : Nat → Bool) : TrimLeftFunc [] f = [] := by
  simp [TrimLeftFunc, indexFunc, indexFuncLoop]

theorem TrimLeftFunc_stop (f : Nat → Bool) (s : GoString) (hs : s ≠ [])
    (hf : f (DecodeRuneInString s).1 = false) : TrimLeftFunc s f = s := by
  rcases s with _ | ⟨c, t⟩
  · exact absurd rfl hs
  · simp [TrimLeftFunc, indexFunc, indexFuncLoop, hf]

theorem TrimLeftFunc_step (f : Nat → Bool) (s : GoString) (hs : s ≠ [])
    (hf : f (DecodeRuneInString s).1 = true) :
    TrimLeftFunc s f = TrimLeftFunc (s.drop (DecodeRuneInString s).2) f := by
  rcases s with _ | ⟨c, t⟩
  · exact absurd rfl hs
  · have hsz := DecodeRuneInString_size (c :: t) (by simp)
    simp only [List.length_cons] at hsz
    simp only [TrimLeftFunc, indexFunc, indexFuncLoop, List.length_cons, Nat.add_eq_zero,
      one_ne_zero, and_false, if_false, hf, Nat.zero_add]
    rw [indexFuncLoop_fuel f false _ _ (le_refl _) t.length _ (by
      simp only [List.length_drop, List.length_cons]; omega)]
    cases indexFuncLoop f false (List.drop (DecodeRuneInString (c :: t)).2 (c :: t)).length
        (List.drop (DecodeRuneInString (c :: t)).2 (c :: t)) 0 with
    | none => simp
    | some k => simp [List.drop_drop, Nat.add_comm]

/-- The backward scan of DecodeLastRuneInString stops after `start - lim + 1`
steps at most: more fuel does not change its result. -/
theorem lastRuneStartLoop_fuel (s : GoString) (lim : Int) (fuel : Nat) :
    ∀ start : Int, start - lim + 1 ≤ (fuel : Int) →
      lastRuneStartLoop s lim fuel start
        = lastRuneStartLoop s lim (start - lim + 1).toNat start := by
  induction fuel with
  | zero =>
    intro start h
    have : (start - lim + 1).toNat = 0 := by omega
    rw [this]
  | succ fuel ih =>
    intro start h
    by_cases hge : start ≥ lim
    · obtain ⟨k, hk⟩ : ∃ k, (start - lim + 1).toNat = k + 1 :=
        ⟨(start - lim + 1).toNat - 1, by omega⟩
      rw [hk]
      by_cases hr : RuneStart (s.getD start.toNat 0) = true
      · rw [lastRuneStartLoop_hit _ _ _ _ hge hr, lastRuneStartLoop_hit _ _ _ _ hge hr]
      · simp only [Bool.not_eq_true] at hr
        rw [lastRuneStartLoop_miss _ _ _ _ hge hr, lastRuneStartLoop_miss _ _ _ _ hge hr,
          ih (start - 1) (by omega)]
        have : (start - 1 - lim + 1).toNat = k := by omega
        rw [this]
    · have : (start - lim + 1).toNat = 0 := by omega
      rw [this]
      simp [lastRuneStartLoop, hge]

/-- The fuel `UTFMax` that DecodeLastRuneInString gives to its backward scan
is enough: the scan starts at `end - 2` and stops at `end - UTFMax` at the
latest. -/
theorem lastRuneStartLoop_UTFMax (s : GoString) (end_ : Nat) (fuel : Nat) (hfuel : UTFMax ≤ fuel) :
    lastRuneStartLoop s (if (end_ : Int) - (UTFMax : Int) < 0 then 0
        else (end_ : Int) - (UTFMax : Int)) fuel ((end_ : Int) - 1 - 1)
      = lastRuneStartLoop s (if (end_ : Int) - (UTFMax : Int) < 0 then 0
        else (end_ : Int) - (UTFMax : Int)) UTFMax ((end_ : Int) - 1 - 1) := by
  have hu : UTFMax = 4 := rfl
  rw [lastRuneStartLoop_fuel s _ fuel _ (by split_ifs <;> omega),
    lastRuneStartLoop_fuel s _ UTFMax _ (by split_ifs <;> omega)]

/-! ### TrimRightFunc -/

theorem lastIndexFuncLoop_zero (f : Nat → Bool) (truth : Bool) (s : GoString) (fuel : Nat) :
    lastIndexFuncLoop f truth s fuel 0 = none := by
  cases fuel <;> simp [lastIndexFuncLoop]

theorem lastIndexFuncLoop_succ (f : Nat → Bool) (truth : Bool) (u w : GoString) (fuel : Nat)
    (hu : u ≠ []) :
    lastIndexFuncLoop f truth (u ++ w) (fuel + 1) u.length =
      if f (DecodeLastRuneInString u).1 == truth then
        some (u.length - (DecodeLastRuneInString u).2)
      else lastIndexFuncLoop f truth (u ++ w) fuel (u.length - (DecodeLastRuneInString u).2) := by
  have hpos : u.length > 0 := List.length_pos.mpr hu
  simp only [lastIndexFuncLoop, hpos, if_true, List.take_left]

/-- The last rune of a non-empty string, when it is a space: the string ends
with the bytes of this rune, which start with a byte that is no continuation
byte. -/
theorem DecodeLastRuneInString_space (u : GoString) (hu : u ≠ [])
    (hsp : IsSpace (DecodeLastRuneInString u).1 = true) :
    ∃ x tok, u = x ++ tok ∧ tok.length = (DecodeLastRuneInString u).2 ∧ tok ≠ []
      ∧ ∀ w, startsRune (tok ++ w) := by
  rcases DecodeLastRuneInString_cases u hu with ⟨x, b, rfl, hb, h⟩ | ⟨x, b, rfl, hb, h⟩
    | ⟨x, enc, rfl, h2, hd, h⟩
  · refine ⟨x, [b], rfl, by rw [h]; rfl, by simp, fun w => Or.inr ⟨b, w, rfl, Or.inl hb⟩⟩
  · rw [h, IsSpace_RuneError] at hsp
    exact absurd hsp (by decide)
  · rcases enc with _ | ⟨c, t⟩
    · simp at h2
    · refine ⟨x, c :: t, rfl, h.symm, by simp, fun w => Or.inr ⟨c, t ++ w, rfl, ?_⟩⟩
      have := DecodeRuneInString_first_byte c t (by rw [hd, h]; exact h2)
      omega

/-- The end that TrimRightFunc computes from the last rune that is no space:
the end of this rune, whatever follows it, as long as what follows starts
with a byte that is no continuation byte. -/
theorem trimRightEnd_stop (u w : GoString) (hu : u ≠ []) (hw : startsRune w) :
    trimRightEnd (u ++ w) (some (u.length - (DecodeLastRuneInString u).2)) = u.length := by
  rcases DecodeLastRuneInString_cases u hu with ⟨x, b, rfl, hb, h⟩ | ⟨x, b, rfl, hb, h⟩
    | ⟨x, enc, rfl, h2, hd, h⟩
  · have e : (x ++ [b]).length - (DecodeLastRuneInString (x ++ [b])).2 = x.length := by
      rw [h]; simp
    have hg : (x ++ [b] ++ w).getD x.length 0 = b := by
      rw [List.append_assoc]; exact getD_append_length x _ b
    simp only [trimRightEnd, e, hg, RuneSelf]
    rw [if_neg (by omega)]
    simp
  · have e : (x ++ [b]).length - (DecodeLastRuneInString (x ++ [b])).2 = x.length := by
      rw [h]; simp
    have hg : (x ++ [b] ++ w).getD x.length 0 = b := by
      rw [List.append_assoc]; exact getD_append_length x _ b
    have hdrop : (x ++ [b] ++ w).drop x.length = b :: w := by
      rw [List.append_assoc, List.drop_left]; rfl
    simp only [trimRightEnd, e, hg, RuneSelf, hdrop]
    rw [if_pos (by omega), DecodeRuneInString_size_one b w hw]
    simp
  · rcases enc with _ | ⟨c, t⟩
    · simp at h2
    · have hc := DecodeRuneInString_first_byte c t (by rw [hd, h]; exact h2)
      have e : (x ++ c :: t).length - (DecodeLastRuneInString (x ++ c :: t)).2 = x.length := by
        rw [h]; simp
      have hg : (x ++ c :: t ++ w).getD x.length 0 = c := by
        rw [List.append_assoc]; exact getD_append_length x _ c
      have hdrop : (x ++ c :: t ++ w).drop x.length = (c :: t) ++ w := by
        rw [List.append_assoc, List.drop_left]
      have hdec : (DecodeRuneInString ((c :: t) ++ w)).2 = (c :: t).length := by
        rcases DecodeRuneInString_append (c :: t) w (by simp) with h' | h'
        · rw [h', hd, h]
        · rw [hd] at h'
          rw [h'] at h
          simp only [List.length_cons] at h h2
          omega
      simp only [trimRightEnd, e, hg, RuneSelf, hdrop, hdec]
      rw [if_pos (by omega)]
      simp

/-- The result of the loop of lastIndexFunc, turned into the end of the
trimmed string, does not depend on what follows the index at which the loop
starts, as long as it starts with a byte that is no continuation byte. -/
theorem trimRightEnd_loop (n : Nat) :
    ∀ (u w : GoString) (fuel : Nat), u.length ≤ n → u.length ≤ fuel → startsRune w →
      trimRightEnd (u ++ w) (lastIndexFuncLoop IsSpace false (u ++ w) fuel u.length)
        = trimRightEnd u (lastIndexFuncLoop IsSpace false u u.length u.length)
      ∧ trimRightEnd u (lastIndexFuncLoop IsSpace false u u.length u.length) ≤ u.length := by
  induction n with
  | zero =>
    intro u w fuel hn _ _
    have : u = [] := List.length_eq_zero.mp (by omega)
    subst this
    simp [lastIndexFuncLoop_zero, trimRightEnd]
  | succ n ih =>
    intro u w fuel hn hfuel hw
    by_cases hu : u = []
    · subst hu
      simp [lastIndexFuncLoop_zero, trimRightEnd]
    · have hpos : 0 < u.length := List.length_pos.mpr hu
      obtain ⟨fuel, rfl⟩ : ∃ k, fuel = k + 1 := ⟨fuel - 1, by omega⟩
      obtain ⟨m, hm⟩ : ∃ m, u.length = m + 1 := ⟨u.length - 1, by omega⟩
      have hR : lastIndexFuncLoop IsSpace false u u.length u.length
          = lastIndexFuncLoop IsSpace false (u ++ []) (m + 1) u.length := by
        rw [List.append_nil, hm]
      rw [hR, lastIndexFuncLoop_succ _ _ u w fuel hu, lastIndexFuncLoop_succ _ _ u [] m hu]
      by_cases hsp : IsSpace (DecodeLastRuneInString u).1 = true
      · obtain ⟨x, tok, hx, htok, hne, hst⟩ := DecodeLastRuneInString_space u hu hsp
        have hlen : u.length - (DecodeLastRuneInString u).2 = x.length := by
          rw [← htok, hx]; simp
        have htl : 0 < tok.length := List.length_pos.mpr hne
        have hxl : x.length + tok.length = u.length := by rw [hx]; simp
        simp only [hsp, hlen]
        have e1 : u ++ w = x ++ (tok ++ w) := by rw [hx, List.append_assoc]
        have e2 : u ++ [] = x ++ (tok ++ []) := by rw [hx, List.append_assoc]
        have e3 : u = x ++ tok := hx
        have h1 := ih x (tok ++ w) fuel (by omega) (by omega) (hst w)
        have h2 := ih x (tok ++ []) m (by omega) (by omega) (hst [])
        rw [← e1] at h1
        rw [← e2] at h2
        simp only [List.append_nil] at h2 ⊢
        simp only [Bool.true_eq_false, if_false, beq_iff_eq]
        rw [h1.1, h2.1]
        exact ⟨rfl, by have := h1.2; omega⟩
      · simp only [Bool.not_eq_true] at hsp
        simp only [hsp, beq_self_eq_true, if_true]
        have hs2 := trimRightEnd_stop u [] hu (Or.inl rfl)
        rw [List.append_nil] at hs2
        rw [trimRightEnd_stop u w hu hw, hs2]
        exact ⟨rfl, le_refl _⟩

theorem TrimRightFunc_eq (s : GoString) :
    TrimRightFunc s IsSpace
      = s.take (trimRightEnd s (lastIndexFuncLoop IsSpace false s s.length s.length)) := rfl

theorem TrimRightFunc_nil : TrimRightFunc [] IsSpace = [] := by
  simp [TrimRightFunc]

/-- When the last rune of a string is no space, TrimRightFunc returns the
string. -/
theorem TrimRightFunc_stop (s : GoString) (hs : s ≠ [])
    (hsp : IsSpace (DecodeLastRuneInString s).1 = false) : TrimRightFunc s IsSpace = s := by
  obtain ⟨m, hm⟩ : ∃ m, s.length = m + 1 :=
    ⟨s.length - 1, by have := List.length_pos.mpr hs; omega⟩
  have h := lastIndexFuncLoop_succ IsSpace false s [] m hs
  rw [List.append_nil, ← hm] at h
  have hs2 := trimRightEnd_stop s [] hs (Or.inl rfl)
  rw [List.append_nil] at hs2
  rw [TrimRightFunc_eq, h]
  simp only [hsp, beq_self_eq_true, if_true, hs2, List.take_length]

/-- When the last rune of a string is a space, TrimRightFunc drops it and
goes on with the rest. -/
theorem TrimRightFunc_step (s : GoString) (hs : s ≠ [])
    (hsp : IsSpace (DecodeLastRuneInString s).1 = true) :
    TrimRightFunc s IsSpace
      = TrimRightFunc (s.take (s.length - (DecodeLastRuneInString s).2)) IsSpace := by
  obtain ⟨m, hm⟩ : ∃ m, s.length = m + 1 :=
    ⟨s.length - 1, by have := List.length_pos.mpr hs; omega⟩
  obtain ⟨x, tok, hx, htok, hne, hst⟩ := DecodeLastRuneInString_space s hs hsp
  have hlen : s.length - (DecodeLastRuneInString s).2 = x.length := by
    rw [← htok, hx]; simp
  have htl : 0 < tok.length := List.length_pos.mpr hne
  have hxl : x.length + tok.length = s.length := by rw [hx]; simp
  have h := lastIndexFuncLoop_succ IsSpace false s [] m hs
  rw [List.append_nil, ← hm] at h
  have htake : s.take x.length = x := by rw [hx, List.take_left]
  rw [TrimRightFunc_eq, h, hlen, htake, TrimRightFunc_eq]
  simp only [hsp, Bool.true_eq_false, if_false, beq_iff_eq]
  have h1 := trimRightEnd_loop x.length x tok m (le_refl _) (by omega) (by
    have := hst []; rwa [List.append_nil] at this)
  rw [← hx] at h1
  rw [h1.1]
  conv_lhs => rw [hx]
  rw [List.take_append_of_le_length h1.2]

/-! ### TrimSpace -/

theorem asciiSpace_eq_zero_iff (c : Nat) (hc : c < 0x80) :
    asciiSpace c = 0 ↔ IsSpace c = false := by
  unfold asciiSpace IsSpace
  have h : c ≤ 0xFF := by omega
  simp only [h, if_true]
  by_cases h1 : c = 0x09 ∨ c = 0x0A ∨ c = 0x0B ∨ c = 0x0C ∨ c = 0x0D ∨ c = 0x20
  · rw [if_pos h1]
    rcases h1 with h1 | h1 | h1 | h1 | h1 | h1 <;> subst h1 <;> decide
  · rw [if_neg h1]
    simp only [not_or] at h1
    have h2 : c ≠ 0x85 := by omega
    have h3 : c ≠ 0xA0 := by omega
    simp [h1.1, h1.2.1, h1.2.2.1, h1.2.2.2.1, h1.2.2.2.2.1, h1.2.2.2.2.2, h2, h3]

/-- The first loop of TrimSpace agrees with TrimLeftFunc. -/
theorem trimSpaceStartLoop_spec (s : GoString) :
    (∃ t, trimSpaceStartLoop s = .inl t
        ∧ TrimLeftFunc s IsSpace = TrimLeftFunc t IsSpace)
    ∨ (∃ t, trimSpaceStartLoop s = .inr t ∧ TrimLeftFunc s IsSpace = t
        ∧ (t = [] ∨ ∃ c t', t = c :: t' ∧ c < 0x80 ∧ IsSpace c = false)) := by
  induction s with
  | nil => exact Or.inr ⟨[], rfl, TrimLeftFunc_nil _, Or.inl rfl⟩
  | cons c t ih =>
    by_cases h1 : c ≥ RuneSelf
    · exact Or.inl ⟨c :: t, by simp [trimSpaceStartLoop, h1], rfl⟩
    · have hc : c < 0x80 := by simp [RuneSelf] at h1; omega
      have hd := DecodeRuneInString_ascii c t hc
      by_cases h2 : asciiSpace c = 0
      · have hsp := (asciiSpace_eq_zero_iff c hc).mp h2
        refine Or.inr ⟨c :: t, by simp [trimSpaceStartLoop, h1, h2], ?_, Or.inr ⟨c, t, rfl, hc, hsp⟩⟩
        exact TrimLeftFunc_stop _ _ (by simp) (by rw [hd]; exact hsp)
      · have hsp : IsSpace c = true := by
          rcases hb : IsSpace c with _ | _
          · exact absurd ((asciiSpace_eq_zero_iff c hc).mpr hb) h2
          · rfl
        have hstep := TrimLeftFunc_step IsSpace (c :: t) (by simp) (by rw [hd]; exact hsp)
        rw [hd] at hstep
        simp only [List.drop_succ_cons, List.drop_zero] at hstep
        have e : trimSpaceStartLoop (c :: t) = trimSpaceStartLoop t := by
          simp [trimSpaceStartLoop, h1, h2]
        rw [e, hstep]
        exact ih

/-- The second loop of TrimSpace agrees with TrimRightFunc. -/
theorem trimSpaceStopLoop_spec (r : GoString) :
    (∃ u, trimSpaceStopLoop r = .inl u
        ∧ TrimRightFunc r.reverse IsSpace = TrimRightFunc u.reverse IsSpace)
    ∨ (∃ u, trimSpaceStopLoop r = .inr u ∧ TrimRightFunc r.reverse IsSpace = u.reverse) := by
  induction r with
  | nil => exact Or.inr ⟨[], rfl, TrimRightFunc_nil⟩
  | cons c t ih =>
    by_cases h1 : c ≥ RuneSelf
    · exact Or.inl ⟨c :: t, by simp [trimSpaceStopLoop, h1], rfl⟩
    · have hc : c < 0x80 := by simp [RuneSelf] at h1; omega
      have hd := DecodeLastRuneInString_ascii t.reverse c hc
      have hrev : (c :: t).reverse = t.reverse ++ [c] := by simp
      by_cases h2 : asciiSpace c = 0
      · have hsp := (asciiSpace_eq_zero_iff c hc).mp h2
        refine Or.inr ⟨c :: t, by simp [trimSpaceStopLoop, h1, h2], ?_⟩
        rw [hrev]
        exact TrimRightFunc_stop _ (by simp) (by rw [hd]; exact hsp)
      · have hsp : IsSpace c = true := by
          rcases hb : IsSpace c with _ | _
          · exact absurd ((asciiSpace_eq_zero_iff c hc).mpr hb) h2
          · rfl
        have hstep := TrimRightFunc_step (t.reverse ++ [c]) (by simp) (by rw [hd]; exact hsp)
        rw [hd] at hstep
        simp only [List.length_append, List.length_singleton, Nat.add_sub_cancel,
          List.take_left] at hstep
        have e : trimSpaceStopLoop (c :: t) = trimSpaceStopLoop t := by
          simp [trimSpaceStopLoop, h1, h2]
        rw [e, hrev, hstep]
        exact ih

/-- The fast path of TrimSpace agrees with its fallback: TrimSpace is
TrimFunc with IsSpace. -/
theorem TrimSpace_eq_TrimFunc (s : GoString) : TrimSpace s = TrimFunc s IsSpace := by
  unfold TrimSpace TrimFunc
  rcases trimSpaceStartLoop_spec s with ⟨t, h1, h2⟩ | ⟨t, h1, h2, _⟩
  · rw [h1, h2]
  · rw [h1, h2]
    simp only
    rcases trimSpaceStopLoop_spec t.reverse with ⟨u, h3, h4⟩ | ⟨u, h3, h4⟩
    · rw [h3]
      simp only
      rw [← h4, List.reverse_reverse]
    · rw [h3]
      simp only
      rw [← h4, List.reverse_reverse]

/-- The result of TrimLeftFunc is a suffix of its argument, empty or with a
first rune that is no space. -/
theorem TrimLeftFunc_spec (n : Nat) : ∀ s : GoString, s.length ≤ n →
    (∃ k, TrimLeftFunc s IsSpace = s.drop k)
    ∧ (TrimLeftFunc s IsSpace = []
        ∨ IsSpace (DecodeRuneInString (TrimLeftFunc s IsSpace)).1 = false) := by
  induction n with
  | zero =>
    intro s hs
    have : s = [] := List.length_eq_zero.mp (by omega)
    subst this
    exact ⟨⟨0, by rw [TrimLeftFunc_nil]; rfl⟩, Or.inl (TrimLeftFunc_nil _)⟩
  | succ n ih =>
    intro s hs
    by_cases hne : s = []
    · subst hne
      exact ⟨⟨0, by rw [TrimLeftFunc_nil]; rfl⟩, Or.inl (TrimLeftFunc_nil _)⟩
    · rcases hsp : IsSpace (DecodeRuneInString s).1 with _ | _
      · rw [TrimLeftFunc_stop _ s hne hsp]
        exact ⟨⟨0, rfl⟩, Or.inr hsp⟩
      · rw [TrimLeftFunc_step _ s hne hsp]
        have hsz := DecodeRuneInString_size s hne
        have hl : (s.drop (DecodeRuneInString s).2).length ≤ n := by
          rw [List.length_drop]; omega
        obtain ⟨⟨k, hk⟩, h2⟩ := ih _ hl
        exact ⟨⟨(DecodeRuneInString s).2 + k, by rw [hk, List.drop_drop]⟩, h2⟩

/-- The result of TrimRightFunc is a prefix of its argument, empty or with a
last rune that is no space. -/
theorem TrimRightFunc_spec (n : Nat) : ∀ s : GoString, s.length ≤ n →
    (∃ k, TrimRightFunc s IsSpace = s.take k)
    ∧ (TrimRightFunc s IsSpace = []
        ∨ IsSpace (DecodeLastRuneInString (TrimRightFunc s IsSpace)).1 = false) := by
  induction n with
  | zero =>
    intro s hs
    have : s = [] := List.length_eq_zero.mp (by omega)
    subst this
    exact ⟨⟨0, by rw [TrimRightFunc_nil]; rfl⟩, Or.inl TrimRightFunc_nil⟩
  | succ n ih =>
    intro s hs
    by_cases hne : s = []
    · subst hne
      exact ⟨⟨0, by rw [TrimRightFunc_nil]; rfl⟩, Or.inl TrimRightFunc_nil⟩
    · rcases hsp : IsSpace (DecodeLastRuneInString s).1 with _ | _
      · rw [TrimRightFunc_stop s hne hsp]
        exact ⟨⟨s.length, (List.take_length s).symm⟩, Or.inr hsp⟩
      · rw [TrimRightFunc_step s hne hsp]
        have hsz := DecodeLastRuneInString_size s hne
        have hl : (s.take (s.length - (DecodeLastRuneInString s).2)).length ≤ n := by
          rw [List.length_take]; omega
        obtain ⟨⟨k, hk⟩, h2⟩ := ih _ hl
        exact ⟨⟨min k (s.length - (DecodeLastRuneInString s).2), by
          rw [hk, List.take_take]⟩, h2⟩

/-- The result of TrimSpace is a piece of its argument. -/
theorem TrimSpace_eq_take_drop (s : GoString) : ∃ j k, TrimSpace s = (s.drop j).take k := by
  rw [TrimSpace_eq_TrimFunc]
  unfold TrimFunc
  obtain ⟨⟨j, hj⟩, _⟩ := TrimLeftFunc_spec s.length s (le_refl _)
  obtain ⟨⟨k, hk⟩, _⟩ := TrimRightFunc_spec _ (TrimLeftFunc s IsSpace) (le_refl _)
  exact ⟨j, k, by rw [hk, hj]⟩

theorem mem_of_mem_TrimSpace (s : GoString) (b : Nat) (hb : b ∈ TrimSpace s) : b ∈ s := by
  obtain ⟨j, k, h⟩ := TrimSpace_eq_take_drop s
  rw [h] at hb
  exact List.mem_of_mem_drop (List.mem_of_mem_take hb)

/-- A non-empty result of TrimSpace has no leading and no trailing white
space: its first rune and its last rune are no spaces. -/
theorem TrimSpace_no_space (s : GoString) (hne : TrimSpace s ≠ []) :
    IsSpace (DecodeRuneInString (TrimSpace s)).1 = false
    ∧ IsSpace (DecodeLastRuneInString (TrimSpace s)).1 = false := by
  rw [TrimSpace_eq_TrimFunc] at hne ⊢
  unfold TrimFunc at hne ⊢
  obtain ⟨_, hl⟩ := TrimLeftFunc_spec s.length s (le_refl _)
  obtain ⟨⟨k, hk⟩, hr⟩ := TrimRightFunc_spec _ (TrimLeftFunc s IsSpace) (le_refl _)
  refine ⟨?_, hr.resolve_left hne⟩
  have htne : TrimLeftFunc s IsSpace ≠ [] := by
    intro h
    rw [h, TrimRightFunc_nil] at hne
    exact hne rfl
  have hfirst := hl.resolve_left htne
  rw [hk] at hne ⊢
  have hsplit := List.take_append_drop k (TrimLeftFunc s IsSpace)
  rcases DecodeRuneInString_append _ ((TrimLeftFunc s IsSpace).drop k) hne with h | h
  · rw [hsplit] at h
    rw [← h]
    exact hfirst
  · rw [h]
    exact IsSpace_RuneError

/-- Applying TrimSpace twice is applying it once. -/
theorem TrimSpace_idem (s : GoString) : TrimSpace (TrimSpace s) = TrimSpace s := by
  by_cases hne : TrimSpace s = []
  · rw [hne]
    decide
  · obtain ⟨h1, h2⟩ := TrimSpace_no_space s hne
    rw [TrimSpace_eq_TrimFunc (TrimSpace s)]
    unfold TrimFunc
    rw [TrimLeftFunc_stop _ _ hne h1, TrimRightFunc_stop _ hne h2]

/-! ### Split -/

theorem str_comma : str "," = [0x2C] := by decide

theorem str_all : str "all" = [0x61, 0x6C, 0x6C] := by decide

theorem splitAtEveryComma_ne_nil (s : GoString) : splitAtEveryComma s ≠ [] := by
  induction s with
  | nil => simp [splitAtEveryComma]
  | cons c t ih =>
    rw [splitAtEveryComma]
    split_ifs
    · simp
    · split <;> simp

theorem splitAtEveryComma_comma (t : GoString) :
    splitAtEveryComma (0x2C :: t) = [] :: splitAtEveryComma t := by
  rw [splitAtEveryComma, if_pos rfl]

theorem splitAtEveryComma_cons (c : Nat) (t p : GoString) (ps : List GoString)
    (hc : c ≠ 0x2C) (hs : splitAtEveryComma t = p :: ps) :
    splitAtEveryComma (c :: t) = (c :: p) :: ps := by
  rw [splitAtEveryComma, if_neg hc, hs]

theorem Index_cons (c : Nat) (t substr : GoString) :
    Index (c :: t) substr =
      if HasPrefix (c :: t) substr then some 0 else (Index t substr).map (· + 1) := by
  rw [Index]

theorem splitAtEveryComma_of_not_mem (s : GoString) (h : 0x2C ∉ s) :
    splitAtEveryComma s = [s] := by
  induction s with
  | nil => rfl
  | cons c t ih =>
    simp only [List.mem_cons, not_or] at h
    exact splitAtEveryComma_cons c t t [] (fun e => h.1 e.symm) (ih h.2)

theorem splitAtEveryComma_append_comma (a b : GoString) (h : 0x2C ∉ a) :
    splitAtEveryComma (a ++ 0x2C :: b) = a :: splitAtEveryComma b := by
  induction a with
  | nil => exact splitAtEveryComma_comma b
  | cons c t ih =>
    simp only [List.mem_cons, not_or] at h
    exact splitAtEveryComma_cons c _ t _ (fun e => h.1 e.symm) (ih h.2)

/-- No piece of a string split at every comma holds a comma. -/
theorem not_mem_of_mem_splitAtEveryComma (s : GoString) :
    ∀ p ∈ splitAtEveryComma s, 0x2C ∉ p := by
  induction s with
  | nil => simp [splitAtEveryComma]
  | cons c t ih =>
    intro p hp
    by_cases hc : c = 0x2C
    · subst hc
      rw [splitAtEveryComma_comma] at hp
      rcases List.mem_cons.mp hp with h | h
      · subst h; simp
      · exact ih p h
    · rcases hs : splitAtEveryComma t with _ | ⟨q, qs⟩
      · exact absurd hs (splitAtEveryComma_ne_nil t)
      · rw [splitAtEveryComma_cons c t q qs hc hs] at hp
        rw [hs] at ih
        rcases List.mem_cons.mp hp with h | h
        · subst h
          have := ih q (List.mem_cons_self _ _)
          simp only [List.mem_cons, not_or]
          exact ⟨fun e => hc e.symm, this⟩
        · exact ih p (List.mem_cons_of_mem _ h)

/-- The pieces of a string split at every comma, joined by commas, give the
string back. -/
theorem joinWithCommas_splitAtEveryComma (s : GoString) :
    joinWithCommas (splitAtEveryComma s) = s := by
  induction s with
  | nil => rfl
  | cons c t ih =>
    rcases hs : splitAtEveryComma t with _ | ⟨q, qs⟩
    · exact absurd hs (splitAtEveryComma_ne_nil t)
    · rw [hs] at ih
      by_cases hc : c = 0x2C
      · subst hc
        rw [splitAtEveryComma_comma, hs]
        simp only [joinWithCommas, List.nil_append, List.flatMap_cons] at ih ⊢
        rw [List.cons_append, ih]
      · rw [splitAtEveryComma_cons c t q qs hc hs]
        simp only [joinWithCommas, List.cons_append] at ih ⊢
        rw [ih]

theorem Index_comma_cons (c : Nat) (t : GoString) :
    Index (c :: t) [0x2C] = if c = 0x2C then some 0 else (Index t [0x2C]).map (· + 1) := by
  rw [Index_cons]
  by_cases hc : c = 0x2C
  · simp [HasPrefix, hc]
  · simp [HasPrefix, hc]

theorem Index_comma_nil : Index [] [0x2C] = none := by
  simp [Index]

theorem Index_comma_none (s : GoString) (h : Index s [0x2C] = none) : 0x2C ∉ s := by
  induction s with
  | nil => simp
  | cons c t ih =>
    rw [Index_comma_cons] at h
    split_ifs at h with hc
    simp only [Option.map_eq_none'] at h
    simp only [List.mem_cons, not_or]
    exact ⟨fun e => hc e.symm, ih h⟩

theorem Index_comma_some (s : GoString) (m : Nat) (h : Index s [0x2C] = some m) :
    s = s.take m ++ 0x2C :: s.drop (m + 1) ∧ 0x2C ∉ s.take m := by
  induction s generalizing m with
  | nil => simp [Index_comma_nil] at h
  | cons c t ih =>
    rw [Index_comma_cons] at h
    split_ifs at h with hc
    · simp only [Option.some.injEq] at h
      subst h
      simp [hc]
    · rcases hi : Index t [0x2C] with _ | k
      · simp [hi] at h
      · simp only [hi, Option.map_some', Option.some.injEq] at h
        subst h
        obtain ⟨h1, h2⟩ := ih k hi
        constructor
        · simp only [List.take_succ_cons, List.drop_succ_cons, List.cons_append, List.cons.injEq,
            true_and]
          exact h1
        · simp only [List.take_succ_cons, List.mem_cons, not_or]
          exact ⟨fun e => hc e.symm, h2⟩

theorem genSplitLoop_comma (n : Nat) : ∀ s : GoString, s.count 0x2C ≤ n →
    genSplitLoop [0x2C] n s = splitAtEveryComma s := by
  induction n with
  | zero =>
    intro s hs
    have : 0x2C ∉ s := by
      intro hm
      have := List.count_pos_iff.mpr hm
      omega
    rw [splitAtEveryComma_of_not_mem s this]
    rfl
  | succ n ih =>
    intro s hs
    unfold genSplitLoop
    rcases hi : Index s [0x2C] with _ | m
    · simp only
      rw [splitAtEveryComma_of_not_mem s (Index_comma_none s hi)]
    · simp only [List.length_singleton]
      obtain ⟨h1, h2⟩ := Index_comma_some s m hi
      have hc : (s.drop (m + 1)).count 0x2C ≤ n := by
        have := congrArg (List.count 0x2C) h1
        rw [List.count_append, List.count_cons_self, List.count_eq_zero_of_not_mem h2] at this
        omega
      rw [ih _ hc]
      conv_rhs => rw [h1]
      rw [splitAtEveryComma_append_comma _ _ h2]

theorem countLoop_comma (fuel : Nat) : ∀ (s : GoString) (n : Nat), s.length ≤ fuel →
    countLoop [0x2C] fuel s n = n + s.count 0x2C := by
  induction fuel with
  | zero =>
    intro s n hs
    have : s = [] := List.length_eq_zero.mp (by omega)
    subst this
    simp [countLoop]
  | succ fuel ih =>
    intro s n hs
    unfold countLoop
    rcases hi : Index s [0x2C] with _ | m
    · simp only
      rw [List.count_eq_zero_of_not_mem (Index_comma_none s hi)]
      rfl
    · simp only [List.length_singleton]
      obtain ⟨h1, h2⟩ := Index_comma_some s m hi
      have hl : (s.drop (m + 1)).length ≤ fuel := by
        have := congrArg List.length h1
        simp only [List.length_append, List.length_cons] at this
        omega
      rw [ih _ _ hl]
      have := congrArg (List.count 0x2C) h1
      rw [List.count_append, List.count_cons_self, List.count_eq_zero_of_not_mem h2] at this
      omega

/-- The function strings.Split with the separator `,` splits at every
comma. -/
theorem Split_comma (s : GoString) : Split s (str ",") = splitAtEveryComma s := by
  rw [str_comma]
  unfold Split Count
  simp only [List.cons_ne_self, if_false, List.length_singleton, one_ne_zero, reduceCtorEq]
  rw [countLoop_comma s.length s 0 (le_refl _)]
  have hle : s.count 0x2C ≤ s.length := List.count_le_length _ _
  simp only [Nat.zero_add]
  rw [if_neg (by omega)]
  exact genSplitLoop_comma _ s (by omega)

/-- The loop of parseToolConfig trims every piece and keeps the pieces that
are not empty. -/
theorem parseToolConfigLoop_eq (tools acc : List GoString) :
    parseToolConfigLoop tools acc
      = acc ++ (tools.map TrimSpace).filter (fun tool => decide (tool ≠ [])) := by
  induction tools generalizing acc with
  | nil => simp [parseToolConfigLoop]
  | cons tool rest ih =>
    unfold parseToolConfigLoop
    by_cases h : TrimSpace tool ≠ []
    · simp only [h, if_true, ne_eq, not_false_eq_true]
      rw [ih]
      simp [List.filter_cons, h]
    · simp only [h, if_false]
      rw [ih]
      simp [List.filter_cons, h]

/-! ### The fuel of the loops of filepath.Match -/

theorem getEsc_cons (c : Nat) (t : GoString) :
    getEsc (c :: t) =
      if c = 0x2D ∨ c = 0x5D then (0, [], some ErrBadPattern)
      else if c = 0x5C ∧ t = [] then (0, [], some ErrBadPattern)
      else
        ((DecodeRuneInString (if c = 0x5C then t else c :: t)).1,
          (if c = 0x5C then t else c :: t).drop
            (DecodeRuneInString (if c = 0x5C then t else c :: t)).2,
          if ((if c = 0x5C then t else c :: t).drop
              (DecodeRuneInString (if c = 0x5C then t else c :: t)).2).length = 0
          then some ErrBadPattern
          else if (DecodeRuneInString (if c = 0x5C then t else c :: t)).1 = RuneError
              ∧ (DecodeRuneInString (if c = 0x5C then t else c :: t)).2 = 1
            then some ErrBadPattern else none) := by
  unfold getEsc
  by_cases h1 : c = 0x2D ∨ c = 0x5D
  · simp [h1]
  · by_cases h2 : c = 0x5C
    · subst h2
      by_cases h3 : t = []
      · subst h3; simp
      · simp [h3]
    · simp [h1, h2]

/-- Without an error, getEsc consumes at least one byte of the chunk. -/
theorem getEsc_length (chunk nchunk : GoString) (r : Nat)
    (h : getEsc chunk = (r, nchunk, none)) : nchunk.length < chunk.length := by
  rcases chunk with _ | ⟨c, t⟩
  · simp [getEsc] at h
  · rw [getEsc_cons] at h
    by_cases h1 : c = 0x2D ∨ c = 0x5D
    · rw [if_pos h1] at h
      simp at h
    · rw [if_neg h1] at h
      by_cases hc : c = 0x5C
      · by_cases ht : t = []
        · rw [if_pos ⟨hc, ht⟩] at h
          simp at h
        · rw [if_neg (fun e => ht e.2)] at h
          simp only [hc, if_true, Prod.mk.injEq] at h
          rw [← h.2.1]
          have := (DecodeRuneInString_size _ ht).1
          simp only [List.length_drop, List.length_cons]
          omega
      · rw [if_neg (fun e => hc e.1)] at h
        simp only [hc, if_false, Prod.mk.injEq] at h
        rw [← h.2.1]
        have := (DecodeRuneInString_size (c :: t) (by simp)).1
        simp only [List.length_drop, List.length_cons]
        omega

/-- Above the length of the chunk, the result of the range loop does not
depend on its fuel, and the rest of the chunk is shorter than the chunk. -/
theorem matchRangeLoop_fuel (r : Nat) (n : Nat) :
    ∀ (chunk : GoString) (mtch : Bool) (nrange fuel : Nat), chunk.length ≤ n →
      chunk.length < fuel →
      matchRangeLoop r fuel chunk mtch nrange
        = matchRangeLoop r (chunk.length + 1) chunk mtch nrange
      ∧ ∀ rest m, matchRangeLoop r (chunk.length + 1) chunk mtch nrange = .ok (rest, m) →
          rest.length < chunk.length := by
  induction n with
  | zero =>
    intro chunk mtch nrange fuel hn hfuel
    have : chunk = [] := List.length_eq_zero.mp (by omega)
    subst this
    obtain ⟨fuel, rfl⟩ : ∃ k, fuel = k + 1 := ⟨fuel - 1, by simp at hfuel; omega⟩
    simp [matchRangeLoop, getEsc]
  | succ n ih =>
    intro chunk mtch nrange fuel hn hfuel
    obtain ⟨fuel, rfl⟩ : ∃ k, fuel = k + 1 := ⟨fuel - 1, by omega⟩
    by_cases hbrk : chunk.length > 0 ∧ chunk.getD 0 0 = 0x5D ∧ nrange > 0
    · simp only [matchRangeLoop, hbrk, and_self, if_true, Except.ok.injEq, Prod.mk.injEq, true_and]
      intro rest m h
      rw [← h.1, List.length_drop]
      omega
    · simp only [matchRangeLoop, hbrk, if_false]
      rcases hg : getEsc chunk with ⟨lo, c1, _ | err⟩
      · have hl1 := getEsc_length _ _ _ hg
        simp only
        by_cases hdash : c1.getD 0 0 = 0x2D
        · simp only [hdash, if_true]
          rcases hg2 : getEsc (c1.drop 1) with ⟨hi, c2, _ | err2⟩
          · have hl2 := getEsc_length _ _ _ hg2
            rw [List.length_drop] at hl2
            simp only
            have h1 := ih c2 (if lo ≤ r ∧ r ≤ hi then true else mtch) (nrange + 1) fuel
              (by omega) (by omega)
            have h2 := ih c2 (if lo ≤ r ∧ r ≤ hi then true else mtch) (nrange + 1) chunk.length
              (by omega) (by omega)
            rw [h1.1, h2.1]
            refine ⟨rfl, fun rest m h => ?_⟩
            have := h1.2 rest m h
            omega
          · simp
        · simp only [hdash, if_false]
          have h1 := ih c1 (if lo ≤ r ∧ r ≤ lo then true else mtch) (nrange + 1) fuel
            (by omega) (by omega)
          have h2 := ih c1 (if lo ≤ r ∧ r ≤ lo then true else mtch) (nrange + 1) chunk.length
            (by omega) (by omega)
          rw [h1.1, h2.1]
          refine ⟨rfl, fun rest m h => ?_⟩
          have := h1.2 rest m h
          omega
      · simp

theorem matchChunkLoop_congr (f1 f2 : Nat) (chunk s : GoString) (failed : Bool)
    (h : ∀ c : GoString, c.length < chunk.length → ∀ (s : GoString) (failed : Bool),
      matchChunkLoop f1 c s failed = matchChunkLoop f2 c s failed) :
    matchChunkLoop (f1 + 1) chunk s failed = matchChunkLoop (f2 + 1) chunk s failed := by
  by_cases hlen : chunk.length > 0
  · simp only [matchChunkLoop, hlen, if_true]
    by_cases h1 : chunk.getD 0 0 = 0x5B
    · simp only [h1, if_true]
      generalize (if (!if (!failed) = true ∧ List.length s = 0 then true else failed) = true then
            ((DecodeRuneInString s).1, List.drop (DecodeRuneInString s).2 s)
          else (0, s)) = rs
      generalize hc : (if decide ((List.drop 1 chunk).length > 0
            ∧ (List.drop 1 chunk).getD 0 0 = 94) = true then
          List.drop 1 (List.drop 1 chunk) else List.drop 1 chunk) = c1
      have hc1 : c1.length < chunk.length := by
        rw [← hc]
        split_ifs <;> simp only [List.length_drop] <;> omega
      rcases hm : matchRangeLoop rs.1 (c1.length + 1) c1 false 0 with err | ⟨c2, m⟩
      · rfl
      · have := (matchRangeLoop_fuel rs.1 c1.length c1 false 0 (c1.length + 1) (le_refl _)
          (Nat.lt_succ_self _)).2 c2 m hm
        exact h c2 (by omega) _ _
    · simp only [h1, if_false]
      by_cases h2 : chunk.getD 0 0 = 0x3F
      · simp only [h2, if_true]
        rw [h _ (by rw [List.length_drop]; omega)]
      · simp only [h2, if_false]
        split_ifs <;>
          first
            | rfl
            | exact h _ (by simp only [List.length_drop]; omega) _ _
  · simp only [matchChunkLoop, hlen, if_false]

/-- Above the length of the chunk, the result of the loop of matchChunk does
not depend on its fuel. -/
theorem matchChunkLoop_fuel (n : Nat) :
    ∀ (chunk s : GoString) (failed : Bool) (fuel : Nat), chunk.length ≤ n →
      chunk.length < fuel →
      matchChunkLoop fuel chunk s failed = matchChunkLoop (chunk.length + 1) chunk s failed := by
  induction n with
  | zero =>
    intro chunk s failed fuel hn hfuel
    have : chunk = [] := List.length_eq_zero.mp (by omega)
    subst this
    obtain ⟨fuel, rfl⟩ : ∃ k, fuel = k + 1 := ⟨fuel - 1, by simp at hfuel; omega⟩
    simp [matchChunkLoop]
  | succ n ih =>
    intro chunk s failed fuel hn hfuel
    obtain ⟨fuel, rfl⟩ : ∃ k, fuel = k + 1 := ⟨fuel - 1, by omega⟩
    apply matchChunkLoop_congr
    intro c hc s' failed'
    rw [ih c s' failed' fuel (by omega) (by omega),
      ih c s' failed' chunk.length (by omega) (by omega)]

theorem scanChunkLoop_bounds (fuel : Nat) :
    ∀ (p : GoString) (inrange : Bool) (i : Nat),
      i ≤ scanChunkLoop fuel p inrange i ∧ scanChunkLoop fuel p inrange i ≤ i + p.length := by
  induction fuel with
  | zero => intro p inrange i; simp [scanChunkLoop]
  | succ fuel ih =>
    intro p inrange i
    rcases p with _ | ⟨c, t⟩
    · simp [scanChunkLoop]
    · simp only [scanChunkLoop, List.length_cons]
      have h1 := ih t inrange (i + 1)
      have h2 := ih t true (i + 1)
      have h3 := ih t false (i + 1)
      have h4 := ih (t.drop 1) inrange (i + 2)
      rw [List.length_drop] at h4
      split_ifs <;> omega

/-- The scan of a pattern that does not start with a star outside a range
moves by at least one byte. -/
theorem scanChunkLoop_pos (fuel : Nat) (c : Nat) (t : GoString) (i : Nat) (hc : c ≠ 0x2A) :
    i + 1 ≤ scanChunkLoop (fuel + 1) (c :: t) false i := by
  simp only [scanChunkLoop]
  have h1 := (scanChunkLoop_bounds fuel t false (i + 1)).1
  have h2 := (scanChunkLoop_bounds fuel t true (i + 1)).1
  have h4 := (scanChunkLoop_bounds fuel (t.drop 1) false (i + 2)).1
  split_ifs <;> omega

/-- Above the length of the pattern, the result of the scan does not depend
on its fuel. -/
theorem scanChunkLoop_fuel (n : Nat) :
    ∀ (p : GoString) (inrange : Bool) (i fuel : Nat), p.length ≤ n → p.length ≤ fuel →
      scanChunkLoop fuel p inrange i = scanChunkLoop p.length p inrange i := by
  induction n with
  | zero =>
    intro p inrange i fuel hn _
    have : p = [] := List.length_eq_zero.mp (by omega)
    subst this
    cases fuel <;> simp [scanChunkLoop]
  | succ n ih =>
    intro p inrange i fuel hn hfuel
    rcases p with _ | ⟨c, t⟩
    · cases fuel <;> simp [scanChunkLoop]
    · obtain ⟨fuel, rfl⟩ : ∃ k, fuel = k + 1 := ⟨fuel - 1, by simp at hfuel; omega⟩
      simp only [List.length_cons] at hn hfuel ⊢
      simp only [scanChunkLoop]
      have hd : (t.drop 1).length ≤ t.length := by rw [List.length_drop]; omega
      rw [ih t inrange (i + 1) fuel (by omega) (by omega),
        ih t true (i + 1) fuel (by omega) (by omega),
        ih t false (i + 1) fuel (by omega) (by omega),
        ih (t.drop 1) inrange (i + 2) fuel (by omega) (by omega),
        ih (t.drop 1) inrange (i + 2) t.length (by omega) (by omega)]

theorem scanChunkStars_length (p : GoString) (star : Bool) :
    (scanChunkStars p star).1.length ≤ p.length
    ∧ ((scanChunkStars p star).1 = [] ∨ ∃ c t, (scanChunkStars p star).1 = c :: t ∧ c ≠ 0x2A) := by
  induction p generalizing star with
  | nil => simp [scanChunkStars]
  | cons c t ih =>
    by_cases hc : c = 0x2A
    · simp only [scanChunkStars, hc, if_true, List.length_cons]
      have := ih true
      exact ⟨by omega, this.2⟩
    · simp only [scanChunkStars, hc, if_false, List.length_cons]
      exact ⟨le_refl _, Or.inr ⟨c, t, rfl, hc⟩⟩

theorem scanChunkStars_star (p : GoString) :
    (scanChunkStars p false).2 = true → (scanChunkStars p false).1.length < p.length := by
  rcases p with _ | ⟨c, t⟩
  · simp [scanChunkStars]
  · by_cases hc : c = 0x2A
    · simp only [scanChunkStars, hc, if_true, List.length_cons]
      intro _
      have := (scanChunkStars_length t true).1
      omega
    · simp [scanChunkStars, hc]

/-- The function scanChunk consumes at least one byte of a non-empty
pattern. -/
theorem scanChunk_length (pattern : GoString) (hne : pattern ≠ []) :
    (scanChunk pattern).2.2.length < pattern.length := by
  unfold scanChunk
  have hl := scanChunkStars_length pattern false
  have hpos := List.length_pos.mpr hne
  rcases hs : scanChunkStars pattern false with ⟨p, star⟩
  rw [hs] at hl
  simp only at hl ⊢
  rcases hl.2 with h | ⟨c, t, h, hc⟩
  · subst h
    simp only [List.length_nil, scanChunkLoop, List.drop_nil]
    exact hpos
  · subst h
    have := scanChunkLoop_pos t.length c t 0 hc
    simp only [List.length_cons, List.length_drop] at hl ⊢
    omega

/-- Above the length of the pattern, the result of the loop of filepath.Match
does not depend on its fuel: the fuel that `Match` gives it is enough. -/
theorem matchLoop_fuel (n : Nat) :
    ∀ (pattern name : GoString) (fuel : Nat), pattern.length ≤ n → pattern.length < fuel →
      matchLoop fuel pattern name = Match pattern name := by
  induction n with
  | zero =>
    intro pattern name fuel hn hfuel
    have : pattern = [] := List.length_eq_zero.mp (by omega)
    subst this
    obtain ⟨fuel, rfl⟩ : ∃ k, fuel = k + 1 := ⟨fuel - 1, by simp at hfuel; omega⟩
    simp [Match, matchLoop]
  | succ n ih =>
    intro pattern name fuel hn hfuel
    obtain ⟨fuel, rfl⟩ : ∃ k, fuel = k + 1 := ⟨fuel - 1, by omega⟩
    by_cases hne : pattern = []
    · subst hne
      simp [Match, matchLoop]
    · have hl := scanChunk_length pattern hne
      have hpos : pattern.length > 0 := List.length_pos.mpr hne
      rcases hsc : scanChunk pattern with ⟨star, chunk, rest⟩
      rw [hsc] at hl
      simp only at hl
      have e1 : ∀ t, matchLoop fuel rest t = Match rest t :=
        fun t => ih rest t fuel (by omega) (by omega)
      have e2 : ∀ t, matchLoop pattern.length rest t = Match rest t :=
        fun t => ih rest t pattern.length (by omega) (by omega)
      unfold Match
      simp only [matchLoop, hpos, if_true, hsc, e1, e2]

/-! ### White space -/

theorem mem_spaceRunes (r : Nat) (h : IsSpace r = true) : r ∈ spaceRunes := by
  unfold IsSpace at h
  by_cases h1 : r ≤ 0xFF
  · rw [if_pos h1] at h
    simp only [Bool.or_eq_true, beq_iff_eq] at h
    rcases h with ((((((h | h) | h) | h) | h) | h) | h) | h <;> subst h <;> decide
  · rw [if_neg h1] at h
    simp only [Bool.or_eq_true, beq_iff_eq, Bool.and_eq_true, decide_eq_true_eq] at h
    rcases h with ((((h | ⟨h, h'⟩) | ⟨h, h'⟩) | h) | h) | h
    · subst h; decide
    · interval_cases r <;> decide
    · interval_cases r <;> decide
    · subst h; decide
    · subst h; decide
    · subst h; decide

theorem spaceToken_one (r : Nat) (hlen : (AppendRune [] r).length = 1)
    (hb : (AppendRune [] r).getD 0 0 < 0x80) (hr : (AppendRune [] r).getD 0 0 = r)
    (hbytes : ∀ b ∈ AppendRune [] r, b ≠ 0x2C ∧ (b ≤ 0x20 ∨ 0x80 ≤ b)) : spaceToken r := by
  rcases htok : AppendRune [] r with _ | ⟨a, _ | ⟨b, t⟩⟩
  · rw [htok] at hlen; simp at hlen
  · rw [htok] at hb hr hbytes
    simp only [List.getD_cons_zero] at hb hr
    subst hr
    unfold spaceToken
    rw [htok]
    refine ⟨fun x => ?_, fun x => ?_, by simp, hbytes⟩
    · exact DecodeRuneInString_ascii _ _ hb
    · exact DecodeLastRuneInString_ascii _ _ hb
  · rw [htok] at hlen; simp at hlen

theorem spaceToken_two (r : Nat) (hlen : (AppendRune [] r).length = 2)
    (ha : RuneStart ((AppendRune [] r).getD 0 0) = true)
    (hd : DecodeRuneInString (AppendRune [] r) = (r, 2))
    (hbytes : ∀ b ∈ AppendRune [] r, b ≠ 0x2C ∧ (b ≤ 0x20 ∨ 0x80 ≤ b)) : spaceToken r := by
  rcases htok : AppendRune [] r with _ | ⟨a, _ | ⟨b, _ | ⟨c, t⟩⟩⟩
  · rw [htok] at hlen; simp at hlen
  · rw [htok] at hlen; simp at hlen
  · rw [htok] at ha hd hbytes
    simp only [List.getD_cons_zero] at ha
    unfold spaceToken
    rw [htok]
    refine ⟨fun x => ?_, fun x => ?_, by simp, hbytes⟩
    · rcases DecodeRuneInString_append [a, b] x (by simp) with h | h
      · rw [h, hd]; rfl
      · rw [hd] at h; simp at h
    · exact DecodeLastRuneInString_two x a b r ha hd
  · rw [htok] at hlen; simp at hlen

theorem spaceToken_three (r : Nat) (hlen : (AppendRune [] r).length = 3)
    (ha : RuneStart ((AppendRune [] r).getD 0 0) = true)
    (hb : RuneStart ((AppendRune [] r).getD 1 0) = false)
    (hd : DecodeRuneInString (AppendRune [] r) = (r, 3))
    (hbytes : ∀ b ∈ AppendRune [] r, b ≠ 0x2C ∧ (b ≤ 0x20 ∨ 0x80 ≤ b)) : spaceToken r := by
  rcases htok : AppendRune [] r with _ | ⟨a, _ | ⟨b, _ | ⟨c, _ | ⟨d, t⟩⟩⟩⟩
  · rw [htok] at hlen; simp at hlen
  · rw [htok] at hlen; simp at hlen
  · rw [htok] at hlen; simp at hlen
  · rw [htok] at ha hb hd hbytes
    simp only [List.getD_cons_zero, List.getD_cons_succ] at ha hb
    unfold spaceToken
    rw [htok]
    refine ⟨fun x => ?_, fun x => ?_, by simp, hbytes⟩
    · rcases DecodeRuneInString_append [a, b, c] x (by simp) with h | h
      · rw [h, hd]; rfl
      · rw [hd] at h; simp at h
    · exact DecodeLastRuneInString_three x a b c r ha hb hd
  · rw [htok] at hlen; simp at hlen

/-- The encoding of a space rune decodes to the rune, forward at the start of
a string and backward at its end, and holds no comma. -/
theorem spaceToken_of_IsSpace (r : Nat) (h : IsSpace r = true) : spaceToken r := by
  have hm := mem_spaceRunes r h
  simp only [spaceRunes, List.mem_cons, List.mem_singleton, List.not_mem_nil, or_false] at hm
  rcases hm with h | h | h | h | h | h | h | h | h | h | h | h | h | h | h | h | h | h | h | h
    | h | h | h | h | h <;> subst h <;>
    first
      | exact spaceToken_one _ (by decide) (by decide) (by decide) (by decide)
      | exact spaceToken_two _ (by decide) (by decide) (by decide) (by decide)
      | exact spaceToken_three _ (by decide) (by decide) (by decide) (by decide) (by decide)

theorem whitespace_cons (r : Nat) (rs : List Nat) :
    whitespace (r :: rs) = AppendRune [] r ++ whitespace rs := by
  simp [whitespace]

theorem whitespace_append (rs qs : List Nat) :
    whitespace (rs ++ qs) = whitespace rs ++ whitespace qs := by
  simp [whitespace]

theorem whitespace_nil : whitespace [] = [] := rfl

/-- TrimLeftFunc drops a leading white space string. -/
theorem TrimLeftFunc_whitespace (rs : List Nat) (x : GoString)
    (hrs : ∀ r ∈ rs, IsSpace r = true) :
    TrimLeftFunc (whitespace rs ++ x) IsSpace = TrimLeftFunc x IsSpace := by
  induction rs with
  | nil => rfl
  | cons r rs ih =>
    obtain ⟨hd, _, hne, _⟩ := spaceToken_of_IsSpace r (hrs r (List.mem_cons_self _ _))
    have hr := hrs r (List.mem_cons_self _ _)
    rw [whitespace_cons, List.append_assoc]
    have hs : AppendRune [] r ++ (whitespace rs ++ x) ≠ [] := by
      intro h
      exact hne (List.append_eq_nil.mp h).1
    rw [TrimLeftFunc_step _ _ hs (by rw [hd]; exact hr), hd]
    simp only [List.drop_left]
    exact ih (fun q hq => hrs q (List.mem_cons_of_mem _ hq))

/-- TrimRightFunc drops a trailing white space string. -/
theorem TrimRightFunc_whitespace (rs : List Nat) (x : GoString)
    (hrs : ∀ r ∈ rs, IsSpace r = true) :
    TrimRightFunc (x ++ whitespace rs) IsSpace = TrimRightFunc x IsSpace := by
  induction rs using List.reverseRecOn with
  | nil => simp [whitespace_nil]
  | append_singleton rs r ih =>
    obtain ⟨_, hd, hne, _⟩ := spaceToken_of_IsSpace r (hrs r (by simp))
    have hr := hrs r (by simp)
    have e : whitespace (rs ++ [r]) = whitespace rs ++ AppendRune [] r := by
      rw [whitespace_append, whitespace_cons, whitespace_nil, List.append_nil]
    rw [e, ← List.append_assoc]
    have hs : x ++ whitespace rs ++ AppendRune [] r ≠ [] := by
      intro h
      exact hne (List.append_eq_nil.mp h).2
    rw [TrimRightFunc_step _ hs (by rw [hd]; exact hr), hd]
    simp only [List.length_append, Nat.add_sub_cancel]
    rw [← List.length_append, List.take_left]
    exact ih (fun q hq => hrs q (by simp [hq]))

/-- TrimSpace returns a tight string from between two white space strings. -/
theorem TrimSpace_sandwich (l r : List Nat) (body : GoString)
    (hl : ∀ q ∈ l, IsSpace q = true) (hr : ∀ q ∈ r, IsSpace q = true) (hb : tight body) :
    TrimSpace (whitespace l ++ body ++ whitespace r) = body := by
  obtain ⟨⟨a, x, hax, ha, hsa⟩, ⟨y, b, hyb, hb', hsb⟩⟩ := hb
  rw [TrimSpace_eq_TrimFunc]
  unfold TrimFunc
  rw [List.append_assoc, TrimLeftFunc_whitespace l _ hl]
  have h1 : TrimLeftFunc (body ++ whitespace r) IsSpace = body ++ whitespace r := by
    apply TrimLeftFunc_stop
    · rw [hax]; simp
    · rw [hax, List.cons_append, DecodeRuneInString_ascii a _ ha]
      exact hsa
  rw [h1, TrimRightFunc_whitespace r _ hr]
  apply TrimRightFunc_stop
  · rw [hax]; simp
  · rw [hyb, DecodeLastRuneInString_ascii y b hb']
    exact hsb

/-- TrimSpace returns the empty string on a white space string. -/
theorem TrimSpace_whitespace (rs : List Nat) (hrs : ∀ r ∈ rs, IsSpace r = true) :
    TrimSpace (whitespace rs) = [] := by
  rw [TrimSpace_eq_TrimFunc]
  unfold TrimFunc
  have := TrimLeftFunc_whitespace rs [] hrs
  rw [List.append_nil] at this
  rw [this, TrimLeftFunc_nil, TrimRightFunc_nil]

/-- The bytes of a white space string: no commas, and no ASCII bytes above
the blank. -/
theorem mem_whitespace (rs : List Nat) (hrs : ∀ r ∈ rs, IsSpace r = true) :
    ∀ b ∈ whitespace rs, b ≠ 0x2C ∧ (b ≤ 0x20 ∨ 0x80 ≤ b) := by
  intro b hb
  simp only [whitespace, List.mem_flatMap] at hb
  obtain ⟨r, hr, hbr⟩ := hb
  exact (spaceToken_of_IsSpace r (hrs r hr)).2.2.2 b hbr

/-! ### Strings of separators -/

theorem sepString_nil : sepString [] = [] := rfl

theorem sepString_comma (t : List (Option Nat)) : sepString (none :: t) = 0x2C :: sepString t := by
  simp [sepString]

theorem sepString_rune (r : Nat) (t : List (Option Nat)) :
    sepString (some r :: t) = AppendRune [] r ++ sepString t := by
  simp [sepString]

theorem sepString_append (a b : List (Option Nat)) :
    sepString (a ++ b) = sepString a ++ sepString b := by
  simp [sepString]

theorem sepString_map_some (rs : List Nat) : sepString (rs.map some) = whitespace rs := by
  induction rs with
  | nil => rfl
  | cons r rs ih => rw [List.map_cons, sepString_rune, ih, whitespace_cons]

/-- A list of separators is a list of runes, or a list of runes followed by a
comma and more separators. -/
theorem sep_first_comma (items : List (Option Nat)) :
    (∃ rs : List Nat, items = rs.map some)
      ∨ (∃ (rs : List Nat) (tail : List (Option Nat)), items = rs.map some ++ none :: tail) := by
  induction items with
  | nil => exact Or.inl ⟨[], rfl⟩
  | cons item rest ih =>
    cases item with
    | none => exact Or.inr ⟨[], rest, rfl⟩
    | some r =>
      rcases ih with ⟨rs, h⟩ | ⟨rs, tail, h⟩
      · exact Or.inl ⟨r :: rs, by rw [h]; rfl⟩
      · exact Or.inr ⟨r :: rs, tail, by rw [h]; rfl⟩

/-- A list of separators is a list of runes, or separators followed by a comma
and a list of runes. -/
theorem sep_last_comma (items : List (Option Nat)) :
    (∃ rs : List Nat, items = rs.map some)
      ∨ (∃ (init : List (Option Nat)) (rs : List Nat), items = init ++ none :: rs.map some) := by
  rcases sep_first_comma items.reverse with ⟨rs, h⟩ | ⟨rs, tail, h⟩
  · refine Or.inl ⟨rs.reverse, ?_⟩
    have := congrArg List.reverse h
    rw [List.reverse_reverse] at this
    rw [this, List.map_reverse]
  · refine Or.inr ⟨tail.reverse, rs.reverse, ?_⟩
    have := congrArg List.reverse h
    rw [List.reverse_reverse] at this
    rw [this]
    simp [List.map_reverse]

/-- The bytes of a string of separators: commas and bytes of white space. -/
theorem mem_sepString (items : List (Option Nat))
    (hitems : ∀ r, some r ∈ items → IsSpace r = true) :
    ∀ b ∈ sepString items, b = 0x2C ∨ b ≤ 0x20 ∨ 0x80 ≤ b := by
  intro b hb
  simp only [sepString, List.mem_flatMap] at hb
  obtain ⟨item, hitem, hbi⟩ := hb
  cases item with
  | none =>
    simp only [List.mem_singleton] at hbi
    exact Or.inl hbi
  | some r =>
    exact Or.inr ((spaceToken_of_IsSpace r (hitems r hitem)).2.2.2 b hbi).2

theorem splitAtEveryComma_append_left (a y p : GoString) (ps : List GoString) (ha : 0x2C ∉ a)
    (hy : splitAtEveryComma y = p :: ps) : splitAtEveryComma (a ++ y) = (a ++ p) :: ps := by
  induction a with
  | nil => exact hy
  | cons c t ih =>
    simp only [List.mem_cons, not_or] at ha
    exact splitAtEveryComma_cons c _ _ _ (fun e => ha.1 e.symm) (ih ha.2)

/-- Every piece of a string of separators split at every comma is a white
space string. -/
theorem splitAtEveryComma_sepString (items : List (Option Nat))
    (hitems : ∀ r, some r ∈ items → IsSpace r = true) :
    ∀ p ∈ splitAtEveryComma (sepString items),
      ∃ rs, (∀ r ∈ rs, IsSpace r = true) ∧ p = whitespace rs := by
  induction items with
  | nil =>
    intro p hp
    simp only [sepString_nil, splitAtEveryComma, List.mem_singleton] at hp
    exact ⟨[], by simp, hp⟩
  | cons item rest ih =>
    have ih' := ih (fun r hr => hitems r (List.mem_cons_of_mem _ hr))
    intro p hp
    cases item with
    | none =>
      rw [sepString_comma, splitAtEveryComma_comma] at hp
      rcases List.mem_cons.mp hp with h | h
      · exact ⟨[], by simp, h⟩
      · exact ih' p h
    | some r =>
      have hr := hitems r (List.mem_cons_self _ _)
      have htok := (spaceToken_of_IsSpace r hr).2.2.2
      rcases hs : splitAtEveryComma (sepString rest) with _ | ⟨q, qs⟩
      · exact absurd hs (splitAtEveryComma_ne_nil _)
      · rw [sepString_rune, splitAtEveryComma_append_left _ _ q qs
          (fun hc => (htok _ hc).1 rfl) hs] at hp
        rw [hs] at ih'
        rcases List.mem_cons.mp hp with h | h
        · obtain ⟨rs, hrs, hq⟩ := ih' q (List.mem_cons_self _ _)
          refine ⟨r :: rs, ?_, by rw [h, hq, whitespace_cons]⟩
          intro x hx
          rcases List.mem_cons.mp hx with hx | hx
          · rw [hx]; exact hr
          · exact hrs x hx
        · exact ih' p (List.mem_cons_of_mem _ h)

/-- The trimmed form of a string of separators that is not all white space:
a string of separators that starts and ends with a comma. -/
theorem TrimSpace_sepString (items : List (Option Nat))
    (hitems : ∀ r, some r ∈ items → IsSpace r = true) (hne : TrimSpace (sepString items) ≠ []) :
    ∃ core, TrimSpace (sepString items) = sepString core
      ∧ (∀ r, some r ∈ core → IsSpace r = true) := by
  rcases sep_first_comma items with ⟨rs, h⟩ | ⟨pre, tail, h⟩
  · exfalso
    apply hne
    rw [h, sepString_map_some]
    apply TrimSpace_whitespace
    intro r hr
    exact hitems r (by rw [h]; exact List.mem_map_of_mem _ hr)
  · have hpre : ∀ r ∈ pre, IsSpace r = true := by
      intro r hr
      exact hitems r (by rw [h]; simp [hr])
    have htail : ∀ r, some r ∈ tail → IsSpace r = true := by
      intro r hr
      exact hitems r (by rw [h]; simp [hr])
    have hcomma : IsSpace 0x2C = false := by decide
    rcases sep_last_comma tail with ⟨post, h2⟩ | ⟨init, post, h2⟩
    · have hpost : ∀ r ∈ post, IsSpace r = true := by
        intro r hr
        exact htail r (by rw [h2]; exact List.mem_map_of_mem _ hr)
      refine ⟨[none], ?_, by simp⟩
      have e : sepString items = whitespace pre ++ sepString [none] ++ whitespace post := by
        rw [h, h2, sepString_append, sepString_map_some, sepString_comma, sepString_map_some,
          sepString_comma, sepString_nil]
        simp
      rw [e]
      apply TrimSpace_sandwich _ _ _ hpre hpost
      exact ⟨⟨0x2C, [], rfl, by decide, hcomma⟩, ⟨[], 0x2C, rfl, by decide, hcomma⟩⟩
    · have hpost : ∀ r ∈ post, IsSpace r = true := by
        intro r hr
        exact htail r (by rw [h2]; simp [hr])
      refine ⟨none :: init ++ [none], ?_, ?_⟩
      · have e : sepString items
            = whitespace pre ++ sepString (none :: init ++ [none]) ++ whitespace post := by
          rw [h, h2, sepString_append, sepString_map_some, sepString_comma, sepString_append,
            sepString_comma, sepString_map_some, List.cons_append, sepString_comma,
            sepString_append, sepString_comma, sepString_nil]
          simp
        rw [e]
        apply TrimSpace_sandwich _ _ _ hpre hpost
        refine ⟨⟨0x2C, sepString (init ++ [none]), ?_, by decide, hcomma⟩,
          ⟨0x2C :: sepString init, 0x2C, ?_, by decide, hcomma⟩⟩
        · rw [List.cons_append, sepString_comma]
        · rw [List.cons_append, sepString_comma, sepString_append, sepString_comma,
            sepString_nil]
          rfl
      · intro r hr
        apply htail r
        rw [h2]
        simp only [List.cons_append, List.mem_cons, List.mem_append, List.mem_singleton,
          reduceCtorEq, or_false, false_or, List.not_mem_nil] at hr
        simp [hr]

/-! ### Tool enablement -/


theorem isToolEnabledLoop_iff (t : GoString) (l : List GoString) :
    isToolEnabledLoop t l = true ↔ ∃ p ∈ l, p = t ∨ (Match p t).1 = true := by
  induction l with
  | nil => simp [isToolEnabledLoop]
  | cons p rest ih =>
    by_cases h1 : p = t
    · simp [isToolEnabledLoop, h1]
    · by_cases h2 : (Match p t).1 = true
      · simp [isToolEnabledLoop, h1, h2]
      · simp [isToolEnabledLoop, h1, h2, ih]

theorem isToolEnabled_some_iff (t : GoString) (cfg : ToolConfig) :
    isToolEnabled t (some cfg) = true ↔
      (cfg.EnableAll = true ∨ ∃ p ∈ cfg.EnabledTools, p = t ∨ (Match p t).1 = true) := by
  by_cases hall : cfg.EnableAll = true
  · simp [isToolEnabled, hall]
  · simp [isToolEnabled, hall, isToolEnabledLoop_iff]

/-- C1: `isToolEnabled t c` is true exactly when the configuration is nil, or
its `EnableAll` is true, or some entry of its `EnabledTools` is equal to `t` or
matches `t` as a pattern of `filepath.Match`.  In particular every tool is
enabled under `EnableAll` whatever the list holds, and without `EnableAll` a
tool that no entry names and no entry matches is disabled. -/
theorem isToolEnabled_iff (t : GoString) (c : Option ToolConfig) :
    (isToolEnabled t c = true ↔
      (c = none ∨ ∃ cfg, c = some cfg ∧
        (cfg.EnableAll = true ∨ ∃ p ∈ cfg.EnabledTools, p = t ∨ (Match p t).1 = true)))
    ∧ (∀ l : List GoString, isToolEnabled t (some { EnabledTools := l, EnableAll := true }) = true)
    ∧ (∀ l : List GoString, (∀ p ∈ l, p ≠ t ∧ (Match p t).1 = false) →
        isToolEnabled t (some { EnabledTools := l, EnableAll := false }) = false) := by
  refine ⟨?_, ?_, ?_⟩
  · cases c with
    | none => simp [isToolEnabled]
    | some cfg => simp [isToolEnabled_some_iff]
  · intro l
    simp [isToolEnabled]
  · intro l hl
    rw [← Bool.not_eq_true, isToolEnabled_some_iff]
    simp only [Bool.false_eq_true, false_or, not_exists, not_and, not_or]
    intro p hp
    exact ⟨(hl p hp).1, by simp [(hl p hp).2]⟩

/-- C1, at a concrete input: the name `read_multiple_files` is enabled by the
entry `read_*`, which is not equal to it and matches it. -/
theorem isToolEnabled_iff_witness :
    str "read_*" ≠ str "read_multiple_files"
    ∧ isToolEnabled (str "read_multiple_files")
        (some { EnabledTools := [str "write_*", str "read_*"], EnableAll := false }) = true :=
  ⟨by decide,
   (isToolEnabled_iff (str "read_multiple_files")
      (some { EnabledTools := [str "write_*", str "read_*"], EnableAll := false })).1.mpr
      (Or.inr ⟨_, rfl, Or.inr ⟨str "read_*", by decide, Or.inr (by decide)⟩⟩)⟩

/-- The ten cases of the test `TestIsToolEnabled` of the repository hold of
the embedding. -/
theorem TestIsToolEnabled :
    isToolEnabled (str "read_file") none = true
    ∧ isToolEnabled (str "read_file") (some { EnabledTools := [], EnableAll := true }) = true
    ∧ isToolEnabled (str "read_file")
        (some { EnabledTools := [str "read_file", str "write_file"], EnableAll := false }) = true
    ∧ isToolEnabled (str "delete_file")
        (some { EnabledTools := [str "read_file", str "write_file"], EnableAll := false }) = false
    ∧ isToolEnabled (str "read_file")
        (some { EnabledTools := [str "read_*", str "write_*"], EnableAll := false }) = true
    ∧ isToolEnabled (str "read_multiple_files")
        (some { EnabledTools := [str "read_*"], EnableAll := false }) = true
    ∧ isToolEnabled (str "delete_file")
        (some { EnabledTools := [str "read_*", str "write_*"], EnableAll := false }) = false
    ∧ isToolEnabled (str "list_directory")
        (some { EnabledTools := [str "list_*"], EnableAll := false }) = true
    ∧ isToolEnabled (str "list_allowed_directories")
        (some { EnabledTools := [str "list_*"], EnableAll := false }) = true
    ∧ isToolEnabled (str "tree")
        (some { EnabledTools := [str "read_*", str "tree", str "write_*"], EnableAll := false })
          = true := by
  decide

/-- C9: without `EnableAll`, `isToolEnabled` is monotone in the set of
configured patterns: when every pattern of `L1` occurs in `L2`, a tool enabled
under `L1` is enabled under `L2`; two lists with the same patterns (a
reordering, a duplication) give the same result; and a pattern inserted at any
position of `L1`, well-formed or not, leaves an enabled tool enabled. -/
theorem isToolEnabled_monotone (t : GoString) (L1 L2 : List GoString)
    (hsub : ∀ p ∈ L1, p ∈ L2) :
    (isToolEnabled t (some { EnabledTools := L1, EnableAll := false }) = true →
      isToolEnabled t (some { EnabledTools := L2, EnableAll := false }) = true)
    ∧ ((∀ p ∈ L2, p ∈ L1) →
      isToolEnabled t (some { EnabledTools := L1, EnableAll := false }) =
        isToolEnabled t (some { EnabledTools := L2, EnableAll := false }))
    ∧ (∀ (bad : GoString) (front back : List GoString), L1 = front ++ back →
      isToolEnabled t (some { EnabledTools := L1, EnableAll := false }) = true →
      isToolEnabled t (some { EnabledTools := front ++ bad :: back, EnableAll := false }) = true) := by
  have mono : ∀ A B : List GoString, (∀ p ∈ A, p ∈ B) →
      isToolEnabled t (some { EnabledTools := A, EnableAll := false }) = true →
      isToolEnabled t (some { EnabledTools := B, EnableAll := false }) = true := by
    intro A B hAB h
    rw [isToolEnabled_some_iff] at h ⊢
    rcases h with h | ⟨p, hp, hm⟩
    · simp at h
    · exact Or.inr ⟨p, hAB p hp, hm⟩
  refine ⟨mono L1 L2 hsub, ?_, ?_⟩
  · intro hsup
    rw [Bool.eq_iff_iff]
    exact ⟨mono L1 L2 hsub, mono L2 L1 hsup⟩
  · intro bad front back hL1 h
    subst hL1
    refine mono (front ++ back) (front ++ bad :: back) ?_ h
    intro p hp
    simp only [List.mem_append, List.mem_cons] at hp ⊢
    tauto

/-- C9, at a concrete input: `read_file` is enabled by the pattern `read_*`,
and stays enabled when the malformed pattern `[` is put in front and another
name behind. -/
theorem isToolEnabled_monotone_witness :
    (Match (str "[") (str "read_file")) = (false, some ErrBadPattern)
    ∧ isToolEnabled (str "read_file")
        (some { EnabledTools := [str "read_*"], EnableAll := false }) = true
    ∧ isToolEnabled (str "read_file")
        (some { EnabledTools := [str "[", str "read_*", str "tree"], EnableAll := false })
          = true :=
  ⟨by decide, by decide,
    (isToolEnabled_monotone (str "read_file") [str "read_*"] [str "[", str "read_*", str "tree"]
      (by decide)).1 (by decide)⟩

/-- C5: when the trimmed tools string is empty or exactly `all`,
`parseToolConfig` returns the configuration with `EnableAll` true and no
`EnabledTools`, under which every tool name is enabled; for every other string
it returns a configuration with `EnableAll` false. -/
theorem parseToolConfig_enableAll (s : GoString) :
    ((TrimSpace s = [] ∨ TrimSpace s = str "all") →
      parseToolConfig s = { EnabledTools := [], EnableAll := true }
        ∧ ∀ t : GoString, isToolEnabled t (some (parseToolConfig s)) = true)
    ∧ (¬ (TrimSpace s = [] ∨ TrimSpace s = str "all") →
      (parseToolConfig s).EnableAll = false) := by
  constructor
  · intro h
    have hp : parseToolConfig s = { EnabledTools := [], EnableAll := true } := by
      simp only [parseToolConfig, if_pos h]
    refine ⟨hp, fun t => ?_⟩
    rw [hp]
    simp [isToolEnabled]
  · intro h
    simp only [parseToolConfig, if_neg h]

/-- C5, at concrete inputs: the strings ` all` followed by a newline, and a
blank string with a tab, enable every tool, and `all,tree` does not set
`EnableAll`. -/
theorem parseToolConfig_enableAll_witness :
    parseToolConfig (str " all\n") = { EnabledTools := [], EnableAll := true }
    ∧ parseToolConfig (str " \t ") = { EnabledTools := [], EnableAll := true }
    ∧ (parseToolConfig (str "all,tree")).EnableAll = false :=
  ⟨((parseToolConfig_enableAll (str " all\n")).1 (by decide)).1,
   ((parseToolConfig_enableAll (str " \t ")).1 (by decide)).1,
   (parseToolConfig_enableAll (str "all,tree")).2 (by decide)⟩

/-! ### Registration -/

theorem NewTool_Name (name : GoString) (opts : List ToolOption) :
    (NewTool name opts).Name = name := by
  have key : ∀ (l : List ToolOption) (t : Tool), (l.foldl ToolOption.apply t).Name = t.Name := by
    intro l
    induction l with
    | nil => intro t; rfl
    | cons o rest ih =>
      intro t
      rw [List.foldl_cons, ih]
      cases o <;> rfl
  exact key opts _

theorem addTool_ite_tools {H : Type} (b : Bool) (s : MCPServer H) (t : Tool)
    (hd : H × HandlerMethod) :
    (if b = true then s.AddTool t hd else s).tools
      = s.tools ++ (if b = true then [(t, hd)] else []) := by
  cases b <;> simp [MCPServer.AddTool]

theorem addTool_ite_resources {H : Type} (b : Bool) (s : MCPServer H) (t : Tool)
    (hd : H × HandlerMethod) :
    (if b = true then s.AddTool t hd else s).resources = s.resources := by
  cases b <;> simp [MCPServer.AddTool]

theorem map_name_ite {H : Type} (b : Bool) (name : GoString) (opts : List ToolOption)
    (hd : H × HandlerMethod) :
    List.map (fun e : Tool × H × HandlerMethod => e.1.Name)
        (if b = true then [(NewTool name opts, hd)] else [])
      = if b = true then [name] else [] := by
  cases b <;> simp [NewTool_Name]

theorem filter_cons_append {α : Type} (p : α → Bool) (a : α) (l : List α) :
    (a :: l).filter p = (if p a = true then [a] else []) ++ l.filter p := by
  by_cases h : p a = true <;> simp [List.filter_cons, h]

theorem toolCatalog_nodup : toolCatalog.Nodup := by decide

theorem NewFilesystemServer_registers {H : Type}
    (NewFilesystemHandler : List GoString → Except GoError H) (allowedDirs : List GoString)
    (c : Option ToolConfig) (h : H) (hok : NewFilesystemHandler allowedDirs = .ok h) :
    ∃ s, NewFilesystemServer NewFilesystemHandler allowedDirs c = .ok s
      ∧ s.resources = [(fileResource, h, HandlerMethod.HandleReadResource)]
      ∧ s.toolNames = toolCatalog.filter (fun n => isToolEnabled n c) := by
  refine ⟨_, by simp only [NewFilesystemServer, hok]; rfl, ?_, ?_⟩
  · simp only [addTool_ite_resources]
    rfl
  · simp only [MCPServer.toolNames, addTool_ite_tools, List.map_append, map_name_ite,
      toolCatalog, filter_cons_append, List.filter_nil, List.append_nil, List.append_assoc]
    simp [MCPServer.AddResource, NewMCPServer]

/-- C2: when the handler is constructed, `NewFilesystemServer` returns a
server, and the names of the tools it registers are, in order, the names of
the 14-name catalog that `isToolEnabled` enables under the configuration; no
registered name is outside the catalog and none is registered twice. -/
theorem NewFilesystemServer_toolNames {H : Type}
    (NewFilesystemHandler : List GoString → Except GoError H) (allowedDirs : List GoString)
    (c : Option ToolConfig) (h : H) (hok : NewFilesystemHandler allowedDirs = .ok h) :
    ∃ s, NewFilesystemServer NewFilesystemHandler allowedDirs c = .ok s
      ∧ s.toolNames = toolCatalog.filter (fun n => isToolEnabled n c)
      ∧ (∀ n ∈ s.toolNames, n ∈ toolCatalog)
      ∧ s.toolNames.Nodup := by
  obtain ⟨s, hs, _, hn⟩ := NewFilesystemServer_registers NewFilesystemHandler allowedDirs c h hok
  refine ⟨s, hs, hn, ?_, ?_⟩
  · intro n hmem
    rw [hn] at hmem
    exact List.mem_of_mem_filter hmem
  · rw [hn]
    exact toolCatalog_nodup.filter _

/-- C2, at a concrete input: under the tools string `read_*,tree` the server
registers `read_file`, `read_multiple_files` and `tree`, in this order. -/
theorem NewFilesystemServer_toolNames_witness :
    ∃ s, @NewFilesystemServer Unit (fun _ => .ok ()) [str "/tmp"]
        (some (parseToolConfig (str "read_*,tree"))) = .ok s
      ∧ s.toolNames = [str "read_file", str "read_multiple_files", str "tree"] :=
  match NewFilesystemServer_toolNames (fun _ => .ok ()) [str "/tmp"]
      (some (parseToolConfig (str "read_*,tree"))) () rfl with
  | ⟨s, hs, hn, _⟩ => ⟨s, hs, hn.trans (by decide)⟩

/-- C8: when the handler is constructed, `NewFilesystemServer` registers the
resource `file://` with the read-resource handler exactly once, whatever the
tool configuration. -/
theorem NewFilesystemServer_resource {H : Type}
    (NewFilesystemHandler : List GoString → Except GoError H) (allowedDirs : List GoString)
    (c : Option ToolConfig) (h : H) (hok : NewFilesystemHandler allowedDirs = .ok h) :
    ∃ s, NewFilesystemServer NewFilesystemHandler allowedDirs c = .ok s
      ∧ s.resources = [(fileResource, h, HandlerMethod.HandleReadResource)]
      ∧ fileResource.URI = "file://"
      ∧ (s.resources.filter (fun e => e.1.URI == "file://")).length = 1 := by
  obtain ⟨s, hs, hr, _⟩ := NewFilesystemServer_registers NewFilesystemHandler allowedDirs c h hok
  refine ⟨s, hs, hr, rfl, ?_⟩
  rw [hr]
  rfl

/-- C8, at a concrete input: under a configuration that enables no tool the
resource is registered all the same. -/
theorem NewFilesystemServer_resource_witness :
    ∃ s, @NewFilesystemServer Unit (fun _ => .ok ()) [str "/tmp"]
        (some { EnabledTools := [], EnableAll := false }) = .ok s
      ∧ s.resources = [(fileResource, (), HandlerMethod.HandleReadResource)]
      ∧ s.toolNames = [] :=
  match NewFilesystemServer_resource (fun _ => .ok ()) [str "/tmp"]
      (some { EnabledTools := [], EnableAll := false }) () rfl with
  | ⟨s, hs, hr, _⟩ => ⟨s, hs, hr, by
      have h2 := hs
      simp only [NewFilesystemServer, isToolEnabled, isToolEnabledLoop] at h2
      cases h2
      rfl⟩

theorem isToolEnabled_of_all (c : Option ToolConfig)
    (hall : c = none ∨ ∃ cfg, c = some cfg ∧ cfg.EnableAll = true) (n : GoString) :
    isToolEnabled n c = true := by
  rcases hall with h | ⟨cfg, h, he⟩
  · subst h; rfl
  · subst h; simp [isToolEnabled, he]

theorem NewFilesystemServer_allTools {H : Type}
    (NewFilesystemHandler : List GoString → Except GoError H) (allowedDirs : List GoString)
    (c : Option ToolConfig) (h : H) (hok : NewFilesystemHandler allowedDirs = .ok h)
    (hall : c = none ∨ ∃ cfg, c = some cfg ∧ cfg.EnableAll = true) :
    ∃ s, NewFilesystemServer NewFilesystemHandler allowedDirs c = .ok s
      ∧ s.tools.map (fun e => e.1) = allTools := by
  refine ⟨_, by simp only [NewFilesystemServer, hok, isToolEnabled_of_all c hall, if_true]; rfl,
    ?_⟩
  rfl

theorem allTools_agree :
    allTools.length = 14
    ∧ catalogAgrees allTools specToolCatalog = true
    ∧ (∀ t ∈ allTools, t.Name = str "list_allowed_directories" →
        t.InputSchema.Properties = [] ∧ t.InputSchema.Required = []) := by
  decide

/-- C3: with every tool enabled (a nil configuration or `EnableAll`), the 14
tools that `NewFilesystemServer` registers agree with the tool catalog of the
specification row by row: the same tool name, exactly the listed parameter
names, the listed types, the parameters marked required in the list
`Required`, the parameters with a default not in it; the tool
`list_allowed_directories` declares no parameter. -/
theorem NewFilesystemServer_schemas {H : Type}
    (NewFilesystemHandler : List GoString → Except GoError H) (allowedDirs : List GoString)
    (c : Option ToolConfig) (h : H) (hok : NewFilesystemHandler allowedDirs = .ok h)
    (hall : c = none ∨ ∃ cfg, c = some cfg ∧ cfg.EnableAll = true) :
    ∃ s, NewFilesystemServer NewFilesystemHandler allowedDirs c = .ok s
      ∧ s.tools.length = 14
      ∧ catalogAgrees (s.tools.map (fun e => e.1)) specToolCatalog = true
      ∧ (∀ e ∈ s.tools, e.1.Name = str "list_allowed_directories" →
          e.1.InputSchema.Properties = [] ∧ e.1.InputSchema.Required = []) := by
  obtain ⟨s, hs, ht⟩ :=
    NewFilesystemServer_allTools NewFilesystemHandler allowedDirs c h hok hall
  refine ⟨s, hs, ?_, ?_, ?_⟩
  · have := congrArg List.length ht
    rw [List.length_map] at this
    rw [this]
    exact allTools_agree.1
  · rw [ht]
    exact allTools_agree.2.1
  · intro e he
    apply allTools_agree.2.2
    rw [← ht]
    exact List.mem_map_of_mem _ he

/-- C3, at a concrete input: the server built under the nil configuration
agrees with the tool catalog of the specification. -/
theorem NewFilesystemServer_schemas_witness :
    ∃ s, @NewFilesystemServer Unit (fun _ => .ok ()) [str "/tmp"] none = .ok s
      ∧ s.tools.length = 14
      ∧ catalogAgrees (s.tools.map (fun e => e.1)) specToolCatalog = true :=
  match NewFilesystemServer_schemas (fun _ => .ok ()) [str "/tmp"] none () rfl (Or.inl rfl) with
  | ⟨s, hs, hl, ha, _⟩ => ⟨s, hs, hl, ha⟩

/-! ### The command line -/

/-- The results of FlagSet.parseOne: a flag that is parsed takes at least one
argument away, and the message of a failure does not begin with `U`. -/
theorem parseOne_cases (sc : Strconv) (flags : Flags) (args : List GoString) :
    (∃ args2, parseOne sc flags args = .done args2)
    ∨ parseOne sc flags args = .errHelp
    ∨ (∃ flags2 args2, parseOne sc flags args = .seen flags2 args2
        ∧ args2.length < args.length)
    ∨ (∃ c t, parseOne sc flags args = .failf (c :: t) ∧ c ≠ 85) := by
  have e1 : str "bad flag syntax: " = 98 :: str "ad flag syntax: " := by decide
  have e2 : str "flag provided but not defined: -"
      = 102 :: str "lag provided but not defined: -" := by decide
  have e3 : str "invalid boolean value " = 105 :: str "nvalid boolean value " := by decide
  have e4 : str "invalid boolean flag " = 105 :: str "nvalid boolean flag " := by decide
  have e5 : str "flag needs an argument: -" = 102 :: str "lag needs an argument: -" := by decide
  have e6 : str "invalid value " = 105 :: str "nvalid value " := by decide
  rcases args with _ | ⟨s, rest⟩
  · exact Or.inl ⟨[], rfl⟩
  · rw [parseOne]
    by_cases c1 : s.length < 2 ∨ s.getD 0 0 ≠ 0x2D
    · rw [if_pos c1]
      exact Or.inl ⟨_, rfl⟩
    rw [if_neg c1]
    simp only
    by_cases c2 : s.getD 1 0 = 0x2D ∧ s.length = 2
    · rw [if_pos c2]
      exact Or.inl ⟨_, rfl⟩
    rw [if_neg c2]
    generalize s.drop (if s.getD 1 0 = 0x2D then 2 else 1) = name
    by_cases c3 : name.length = 0 ∨ name.getD 0 0 = 0x2D ∨ name.getD 0 0 = 0x3D
    · rw [if_pos c3, e1]
      exact Or.inr (Or.inr (Or.inr ⟨98, _, rfl, by decide⟩))
    rw [if_neg c3]
    generalize splitValue name = triple
    obtain ⟨name, hasValue, value⟩ := triple
    rcases hf : formal name with _ | fl
    · by_cases c4 : name = str "help" ∨ name = str "h"
      · simp only [if_pos c4]
        exact Or.inr (Or.inl trivial)
      · simp only [if_neg c4, e2]
        exact Or.inr (Or.inr (Or.inr ⟨102, _, rfl, by decide⟩))
    · rcases fl with _ | _ | _ | _ | _ <;> rcases hasValue with _ | _ <;>
        rcases rest with _ | ⟨next, rest⟩ <;>
        simp only [Bool.not_false, Bool.not_true, if_true, if_false, Bool.false_eq_true] <;>
        first
          | (simp only [e5, List.cons_append]
             exact Or.inr (Or.inr (Or.inr ⟨_, _, rfl, by decide⟩)))
          | (split
             · simp only [e3, e4, e6, List.cons_append]
               exact Or.inr (Or.inr (Or.inr ⟨_, _, rfl, by decide⟩))
             · exact Or.inr (Or.inr (Or.inl ⟨_, _, rfl, by simp only [List.length_cons]; omega⟩)))

/-- With more fuel than arguments, the result of the loop of FlagSet.Parse
does not depend on its fuel: the fuel that `Parse` gives it is enough. -/
theorem parseLoop_fuel (sc : Strconv) (n : Nat) :
    ∀ (flags : Flags) (args : List GoString) (fuel : Nat), args.length ≤ n →
      args.length < fuel →
      parseLoop sc fuel flags args = parseLoop sc (args.length + 1) flags args := by
  induction n with
  | zero =>
    intro flags args fuel hn hfuel
    have : args = [] := List.length_eq_zero.mp (by omega)
    subst this
    obtain ⟨fuel, rfl⟩ : ∃ k, fuel = k + 1 := ⟨fuel - 1, by simp at hfuel; omega⟩
    simp [parseLoop, parseOne]
  | succ n ih =>
    intro flags args fuel hn hfuel
    obtain ⟨fuel, rfl⟩ : ∃ k, fuel = k + 1 := ⟨fuel - 1, by omega⟩
    rcases parseOne_cases sc flags args with ⟨a, h⟩ | h | ⟨f2, a2, h, hl⟩ | ⟨c, t, h, _⟩
    · simp [parseLoop, h]
    · simp [parseLoop, h]
    · simp only [parseLoop, h]
      rw [ih f2 a2 fuel (by omega) (by omega), ih f2 a2 args.length (by omega) (by omega)]
    · simp [parseLoop, h]

theorem parseToolConfig_of_list (s : GoString)
    (h : ¬ (TrimSpace s = [] ∨ TrimSpace s = str "all")) :
    parseToolConfig s =
      { EnabledTools := ((splitAtEveryComma (TrimSpace s)).map TrimSpace).filter
          (fun piece => decide (piece ≠ [])),
        EnableAll := false } := by
  simp only [parseToolConfig, if_neg h, Split_comma, parseToolConfigLoop_eq, List.nil_append]

/-- C6: when the trimmed tools string is neither empty nor `all`, the
`EnabledTools` of `parseToolConfig` are the pieces of the trimmed string split
at every comma, each trimmed, without the pieces that are then empty, in their
order (the pieces hold no comma and, joined by commas, give the trimmed string
back); every entry is non-empty, holds no comma, and has no leading and no
trailing white space: its first and its last rune are no spaces, and trimming
it again changes nothing. -/
theorem parseToolConfig_enabledTools (s : GoString)
    (h : ¬ (TrimSpace s = [] ∨ TrimSpace s = str "all")) :
    (parseToolConfig s).EnabledTools
        = ((splitAtEveryComma (TrimSpace s)).map TrimSpace).filter
            (fun piece => decide (piece ≠ []))
    ∧ Split (TrimSpace s) (str ",") = splitAtEveryComma (TrimSpace s)
    ∧ joinWithCommas (splitAtEveryComma (TrimSpace s)) = TrimSpace s
    ∧ (∀ p ∈ splitAtEveryComma (TrimSpace s), 0x2C ∉ p)
    ∧ ∀ e ∈ (parseToolConfig s).EnabledTools,
        e ≠ [] ∧ 0x2C ∉ e
        ∧ IsSpace (DecodeRuneInString e).1 = false
        ∧ IsSpace (DecodeLastRuneInString e).1 = false
        ∧ TrimSpace e = e := by
  refine ⟨by rw [parseToolConfig_of_list s h], Split_comma _,
    joinWithCommas_splitAtEveryComma _, not_mem_of_mem_splitAtEveryComma _, ?_⟩
  intro e he
  rw [parseToolConfig_of_list s h] at he
  simp only [List.mem_filter, List.mem_map, decide_eq_true_eq] at he
  obtain ⟨⟨p, hp, rfl⟩, hne⟩ := he
  refine ⟨hne, ?_, (TrimSpace_no_space p hne).1, (TrimSpace_no_space p hne).2, TrimSpace_idem p⟩
  intro hc
  exact not_mem_of_mem_splitAtEveryComma _ p hp (mem_of_mem_TrimSpace p _ hc)

/-- C6, at a concrete input: a tools string with blanks, a tab, two no-break
spaces and two empty pieces gives the two entries `read_file` and `write_*`. -/
theorem parseToolConfig_enabledTools_witness :
    (parseToolConfig (str " read_file ,\t\u00a0write_*\u00a0,, ")).EnabledTools
      = [str "read_file", str "write_*"] :=
  (parseToolConfig_enabledTools (str " read_file ,\t\u00a0write_*\u00a0,, ") (by decide)).1.trans
    (by decide)

/-! ### Tools strings of separators -/

theorem isToolEnabled_nil (t : GoString) :
    isToolEnabled t (some { EnabledTools := [], EnableAll := false }) = false := by
  simp [isToolEnabled, isToolEnabledLoop]

theorem parseToolConfig_sepString (items : List (Option Nat))
    (hitems : ∀ r, some r ∈ items → IsSpace r = true)
    (hne : TrimSpace (sepString items) ≠ []) :
    parseToolConfig (sepString items) = { EnabledTools := [], EnableAll := false } := by
  obtain ⟨core, hcore, hok⟩ := TrimSpace_sepString items hitems hne
  have hall : ¬ (TrimSpace (sepString items) = [] ∨ TrimSpace (sepString items) = str "all") := by
    rintro (h | h)
    · exact hne h
    · rw [hcore, str_all] at h
      have := mem_sepString core hok 0x61 (by rw [h]; simp)
      omega
  rw [parseToolConfig_of_list _ hall, hcore]
  congr 1
  rw [List.filter_eq_nil_iff]
  intro p hp
  simp only [List.mem_map] at hp
  obtain ⟨q, hq, rfl⟩ := hp
  obtain ⟨rs, hrs, rfl⟩ := splitAtEveryComma_sepString core hok q hq
  rw [TrimSpace_whitespace rs hrs]
  simp

/-! ### Tools strings of names -/

theorem tight_of_tightCheck (w : GoString) (h : tightCheck w = true) : tight w := by
  unfold tightCheck at h
  rcases w with _ | ⟨a, x⟩
  · simp at h
  · have hne : a :: x ≠ [] := by simp
    have hl : (a :: x).getLast? = some ((a :: x).getLast hne) := List.getLast?_eq_getLast _ hne
    rw [hl] at h
    simp only [List.head?_cons, Bool.and_eq_true, decide_eq_true_eq, Bool.not_eq_true'] at h
    refine ⟨⟨a, x, rfl, h.1.1.1, h.1.1.2⟩,
      ⟨(a :: x).dropLast, (a :: x).getLast hne, (List.dropLast_append_getLast hne).symm,
        h.1.2, h.2⟩⟩

theorem toolCatalog_names :
    ∀ n ∈ toolCatalog, tightCheck n = true ∧ 0x2C ∉ n ∧ n.head? ≠ some 0x61 := by
  decide

/-- A name of the catalog, as a pattern, matches no other name of the
catalog. -/
theorem toolCatalog_Match :
    ∀ p ∈ toolCatalog, ∀ t ∈ toolCatalog, (Match p t).1 = true → p = t := by
  decide

theorem splitAtEveryComma_joinWithCommas (ps : List GoString) (hne : ps ≠ [])
    (hps : ∀ p ∈ ps, 0x2C ∉ p) : splitAtEveryComma (joinWithCommas ps) = ps := by
  induction ps with
  | nil => exact absurd rfl hne
  | cons p qs ih =>
    rcases qs with _ | ⟨q, qs⟩
    · simp only [joinWithCommas, List.flatMap_nil, List.append_nil]
      exact splitAtEveryComma_of_not_mem p (hps p (List.mem_cons_self _ _))
    · have e : joinWithCommas (p :: q :: qs) = p ++ 0x2C :: joinWithCommas (q :: qs) := by
        simp [joinWithCommas]
      rw [e, splitAtEveryComma_append_comma _ _ (hps p (List.mem_cons_self _ _)),
        ih (by simp) (fun x hx => hps x (List.mem_cons_of_mem _ hx))]

theorem PaddedName.not_mem_bytes (e : PaddedName) (hok : e.ok) (hn : 0x2C ∉ e.name) :
    0x2C ∉ e.bytes := by
  intro h
  simp only [PaddedName.bytes, List.mem_append] at h
  rcases h with (h | h) | h
  · exact (mem_whitespace _ hok.1 _ h).1 rfl
  · exact hn h
  · exact (mem_whitespace _ hok.2 _ h).1 rfl

theorem PaddedName.TrimSpace_bytes (e : PaddedName) (hok : e.ok) (hn : tight e.name) :
    TrimSpace e.bytes = e.name :=
  TrimSpace_sandwich _ _ _ hok.1 hok.2 hn

theorem tight_append (u v w : GoString) (hu : tight u) (hw : tight w) : tight (u ++ v ++ w) := by
  obtain ⟨⟨a, x, hax, ha, hsa⟩, _⟩ := hu
  obtain ⟨_, ⟨y, b, hyb, hb, hsb⟩⟩ := hw
  refine ⟨⟨a, x ++ v ++ w, by rw [hax]; simp, ha, hsa⟩,
    ⟨u ++ v ++ y, b, by rw [hyb]; simp, hb, hsb⟩⟩

/-- The trimmed form of names joined by commas, each with white space around
it: the white space before the first name and after the last name is gone. -/
theorem TrimSpace_joinWithCommas (e0 : PaddedName) (rest : List PaddedName)
    (hok : ∀ e ∈ e0 :: rest, e.ok) (hn : ∀ e ∈ e0 :: rest, tight e.name) :
    ∃ entries : List PaddedName,
      entries.map PaddedName.name = (e0 :: rest).map PaddedName.name
      ∧ (∀ e ∈ entries, e.ok)
      ∧ TrimSpace (joinWithCommas ((e0 :: rest).map PaddedName.bytes))
          = joinWithCommas (entries.map PaddedName.bytes)
      ∧ ∃ x, TrimSpace (joinWithCommas ((e0 :: rest).map PaddedName.bytes)) = e0.name ++ x := by
  have hok0 := hok e0 (List.mem_cons_self _ _)
  have hn0 := hn e0 (List.mem_cons_self _ _)
  rcases List.eq_nil_or_concat rest with h | ⟨mid, ek, h⟩
  · subst h
    refine ⟨[⟨[], e0.name, []⟩], rfl, ?_, ?_, ⟨[], ?_⟩⟩
    · intro e he
      simp only [List.mem_singleton] at he
      subst he
      exact ⟨by simp, by simp⟩
    · simp only [List.map_cons, List.map_nil, joinWithCommas, List.flatMap_nil, List.append_nil]
      rw [PaddedName.TrimSpace_bytes e0 hok0 hn0]
      simp [PaddedName.bytes, whitespace_nil]
    · simp only [List.map_cons, List.map_nil, joinWithCommas, List.flatMap_nil, List.append_nil]
      rw [PaddedName.TrimSpace_bytes e0 hok0 hn0]
  · subst h
    simp only [List.concat_eq_append] at hok hn ⊢
    have hokk := hok ek (by simp)
    have hnk := hn ek (by simp)
    have key : TrimSpace (joinWithCommas ((e0 :: (mid ++ [ek])).map PaddedName.bytes))
        = e0.name ++ (whitespace e0.after ++ mid.flatMap (fun e => 0x2C :: e.bytes)
            ++ 0x2C :: whitespace ek.before) ++ ek.name := by
      have e : joinWithCommas ((e0 :: (mid ++ [ek])).map PaddedName.bytes)
          = whitespace e0.before
            ++ (e0.name ++ (whitespace e0.after ++ mid.flatMap (fun e => 0x2C :: e.bytes)
              ++ 0x2C :: whitespace ek.before) ++ ek.name)
            ++ whitespace ek.after := by
        simp [joinWithCommas, PaddedName.bytes, List.flatMap_append, List.flatMap_map]
      rw [e]
      exact TrimSpace_sandwich _ _ _ hok0.1 hokk.2 (tight_append _ _ _ hn0 hnk)
    refine ⟨⟨[], e0.name, e0.after⟩ :: (mid ++ [⟨ek.before, ek.name, []⟩]), ?_, ?_, ?_,
      ⟨(whitespace e0.after ++ mid.flatMap (fun e => 0x2C :: e.bytes)
            ++ 0x2C :: whitespace ek.before) ++ ek.name, ?_⟩⟩
    · simp
    · intro e he
      simp only [List.mem_cons, List.mem_append, List.mem_singleton, List.not_mem_nil,
        or_false] at he
      rcases he with he | he | he
      · subst he; exact ⟨by simp, hok0.2⟩
      · exact hok e (by simp [he])
      · subst he; exact ⟨hokk.1, by simp⟩
    · rw [key]
      simp [joinWithCommas, PaddedName.bytes, List.flatMap_append, List.flatMap_map,
        whitespace_nil]
    · rw [key, List.append_assoc]

/-- C4: for a non-empty list of names of the 14-name catalog, joined by
commas, each with any white space before and after it, `parseToolConfig`
returns exactly these names, in order, without `EnableAll`; hence a tool of
the catalog is enabled under the parsed configuration exactly when it occurs
in the list. -/
theorem parseToolConfig_names (entries : List PaddedName) (hne : entries ≠ [])
    (hnames : ∀ e ∈ entries, e.name ∈ toolCatalog) (hok : ∀ e ∈ entries, e.ok) :
    parseToolConfig (joinWithCommas (entries.map PaddedName.bytes))
        = { EnabledTools := entries.map PaddedName.name, EnableAll := false }
    ∧ ∀ t ∈ toolCatalog,
        (isToolEnabled t
            (some (parseToolConfig (joinWithCommas (entries.map PaddedName.bytes)))) = true
          ↔ t ∈ entries.map PaddedName.name) := by
  have htight : ∀ e ∈ entries, tight e.name := fun e he =>
    tight_of_tightCheck _ (toolCatalog_names _ (hnames e he)).1
  have hparse : parseToolConfig (joinWithCommas (entries.map PaddedName.bytes))
      = { EnabledTools := entries.map PaddedName.name, EnableAll := false } := by
    rcases entries with _ | ⟨e0, rest⟩
    · exact absurd rfl hne
    · obtain ⟨entries', hmap, hok', htrim, x, hx⟩ := TrimSpace_joinWithCommas e0 rest hok htight
      have hn0 := toolCatalog_names _ (hnames e0 (List.mem_cons_self _ _))
      have hall : ¬ (TrimSpace (joinWithCommas ((e0 :: rest).map PaddedName.bytes)) = []
          ∨ TrimSpace (joinWithCommas ((e0 :: rest).map PaddedName.bytes)) = str "all") := by
        obtain ⟨⟨a, y, hay, _, _⟩, _⟩ := htight e0 (List.mem_cons_self _ _)
        rw [hx, hay, str_all]
        rintro (h | h)
        · simp at h
        · simp only [List.cons_append, List.cons.injEq] at h
          apply hn0.2.2
          rw [hay, h.1]
          rfl
      have hnames' : ∀ e ∈ entries', e.name ∈ toolCatalog := by
        intro e he
        have : e.name ∈ entries'.map PaddedName.name := List.mem_map_of_mem _ he
        rw [hmap] at this
        obtain ⟨e1, he1, h1⟩ := List.mem_map.mp this
        rw [← h1]
        exact hnames e1 he1
      have hne' : entries'.map PaddedName.bytes ≠ [] := by
        intro h
        have h2 : entries'.length = 0 := by simpa using congrArg List.length h
        have h3 : entries'.length = rest.length + 1 := by
          simpa using congrArg List.length hmap
        omega
      rw [parseToolConfig_of_list _ hall, htrim, splitAtEveryComma_joinWithCommas _ hne' (by
        intro p hp
        obtain ⟨e, he, rfl⟩ := List.mem_map.mp hp
        exact e.not_mem_bytes (hok' e he) (toolCatalog_names _ (hnames' e he)).2.1)]
      congr 1
      rw [← hmap, List.map_map]
      have hmap2 : List.map (TrimSpace ∘ PaddedName.bytes) entries'
          = List.map PaddedName.name entries' := by
        apply List.map_congr_left
        intro e he
        exact e.TrimSpace_bytes (hok' e he)
          (tight_of_tightCheck _ (toolCatalog_names _ (hnames' e he)).1)
      rw [hmap2, List.filter_eq_self]
      intro n hn
      obtain ⟨e, he, rfl⟩ := List.mem_map.mp hn
      have := tight_of_tightCheck _ (toolCatalog_names _ (hnames' e he)).1
      obtain ⟨⟨a, y, hay, _, _⟩, _⟩ := this
      rw [hay]
      simp
  refine ⟨hparse, ?_⟩
  intro t ht
  rw [hparse, isToolEnabled_some_iff]
  simp only [Bool.false_eq_true, false_or]
  constructor
  · rintro ⟨p, hp, h | h⟩
    · rw [← h]; exact hp
    · obtain ⟨e, he, rfl⟩ := List.mem_map.mp hp
      rw [← toolCatalog_Match _ (hnames e he) t ht h]
      exact hp
  · intro h
    exact ⟨t, h, Or.inl rfl⟩

/-- C4, at the input of the help text: the tools string `read_file,write_file`
enables `read_file` and `write_file` and none of the other 12 tools; so does
the same list with white space around the names. -/
theorem parseToolConfig_names_witness :
    parseToolConfig (str "read_file,write_file")
        = { EnabledTools := [str "read_file", str "write_file"], EnableAll := false }
    ∧ toolCatalog.filter
        (fun t => isToolEnabled t (some (parseToolConfig (str "read_file,write_file"))))
        = [str "read_file", str "write_file"]
    ∧ parseToolConfig (str " read_file , write_file\t")
        = { EnabledTools := [str "read_file", str "write_file"], EnableAll := false } :=
  ⟨(parseToolConfig_names [⟨[], str "read_file", []⟩, ⟨[], str "write_file", []⟩]
      (by simp) (by decide)
      (by
        intro e he
        simp only [List.mem_cons, List.mem_singleton, List.not_mem_nil, or_false] at he
        rcases he with rfl | rfl <;> exact ⟨by decide, by decide⟩)).1,
   by decide,
   (parseToolConfig_names [⟨[0x20], str "read_file", [0x20]⟩, ⟨[0xA0], str "write_file", [0x09]⟩]
      (by simp) (by decide)
      (by
        intro e he
        simp only [List.mem_cons, List.mem_singleton, List.not_mem_nil, or_false] at he
        rcases he with rfl | rfl <;> exact ⟨by decide, by decide⟩)).1⟩

theorem parseToolConfig_TrimSpace (s : GoString) :
    parseToolConfig (TrimSpace s) = parseToolConfig s := by
  simp only [parseToolConfig, TrimSpace_idem]

/-- C10: for a tools string whose trimmed form is not empty and is made of
commas and white space only (the string itself, or its trimmed form, is the
string of a list of commas and space runes), `parseToolConfig` returns
`EnableAll` false with an empty `EnabledTools`; under this configuration
`isToolEnabled` is false for every tool name, and `NewFilesystemServer`
registers no tool; the empty string, in contrast, gives `EnableAll`. -/
theorem parseToolConfig_separators (s : GoString) (items : List (Option Nat))
    (hitems : ∀ r, some r ∈ items → IsSpace r = true)
    (hs : s = sepString items ∨ TrimSpace s = sepString items)
    (hne : TrimSpace s ≠ []) :
    parseToolConfig s = { EnabledTools := [], EnableAll := false }
    ∧ (∀ t : GoString, isToolEnabled t (some (parseToolConfig s)) = false)
    ∧ (∀ (H : Type) (NewFilesystemHandler : List GoString → Except GoError H)
        (allowedDirs : List GoString) (h : H), NewFilesystemHandler allowedDirs = .ok h →
        ∃ srv, NewFilesystemServer NewFilesystemHandler allowedDirs
            (some (parseToolConfig s)) = .ok srv ∧ srv.toolNames = [])
    ∧ parseToolConfig [] = { EnabledTools := [], EnableAll := true } := by
  have hp : parseToolConfig s = { EnabledTools := [], EnableAll := false } := by
    rcases hs with hs | hs
    · rw [hs] at hne ⊢
      exact parseToolConfig_sepString items hitems hne
    · rw [← parseToolConfig_TrimSpace, hs]
      apply parseToolConfig_sepString items hitems
      rw [← hs, TrimSpace_idem]
      exact hne
  refine ⟨hp, ?_, ?_, by decide⟩
  · intro t
    rw [hp]
    exact isToolEnabled_nil t
  · intro H newH dirs h hok
    obtain ⟨srv, hsrv, _, hn⟩ := NewFilesystemServer_registers newH dirs
      (some (parseToolConfig s)) h hok
    refine ⟨srv, hsrv, ?_⟩
    rw [hn, hp, List.filter_eq_nil_iff]
    intro n _
    rw [isToolEnabled_nil]
    simp

/-- C10, at concrete inputs: the tools strings ` , ,` and `,` disable every
tool. -/
theorem parseToolConfig_separators_witness :
    sepString [some 0x20, none, some 0x20, none] = str " , ,"
    ∧ parseToolConfig (str " , ,") = { EnabledTools := [], EnableAll := false }
    ∧ isToolEnabled (str "read_file") (some (parseToolConfig (str " , ,"))) = false
    ∧ parseToolConfig (str ",") = { EnabledTools := [], EnableAll := false } :=
  ⟨by decide,
   (parseToolConfig_separators (str " , ,") [some 0x20, none, some 0x20, none]
      (by
        intro r hr
        simp only [List.mem_cons, Option.some.injEq, reduceCtorEq, List.not_mem_nil,
          or_false, false_or, or_self] at hr
        subst hr
        decide)
      (Or.inl (by decide)) (by decide)).1,
   by decide,
   (parseToolConfig_separators (str ",") [none] (by simp) (Or.inr (by decide)) (by decide)).1⟩

end FilesystemServer
